import Mathlib

/-!
Verification of the collector-watcher inventory reconciliation core.

This file shallowly embeds the Python source of the repository
(`src/collector_watcher/...` and `src/docs_automation/...`) into Lean:

* YAML/JSON-like scalar values are the inductive `Val`; Python dicts are
  modelled as association lists whose keys are unique and, by convention,
  listed in key-sorted (canonical) order, so structural equality of the
  model coincides with Python's order-insensitive dict equality.
* Python's distinction between "key absent" and "key present with value
  None" is modelled with nested options: `Option (Option α)` where `none`
  is an absent key and `some none` is an explicit null.
* Code that can raise (KeyError on a missing "name", AttributeError from
  `None.get`, TypeError from `set(None)` or an unsupported comparison)
  is embedded in `Except String`.
* Machine strings are Lean `String`s; `\d` of Python's `re` is modelled
  as ASCII digits.
-/

instance {ε α : Type} [DecidableEq ε] [DecidableEq α] : DecidableEq (Except ε α) :=
  fun x y =>
    match x, y with
    | .ok a, .ok b =>
      if h : a = b then isTrue (congrArg Except.ok h)
      else isFalse (fun hh => h (Except.ok.inj hh))
    | .error a, .error b =>
      if h : a = b then isTrue (congrArg Except.error h)
      else isFalse (fun hh => h (Except.error.inj hh))
    | .ok _, .error _ => isFalse (fun hh => Except.noConfusion hh)
    | .error _, .ok _ => isFalse (fun hh => Except.noConfusion hh)

/-- A YAML/JSON-like value, the payload type of attribute and metric
specifications.  The embedded code only ever compares these for
equality, so they are modelled as a free universe of trees: sequences
are `cons`/`nil` chains, dict entries are `entry` cells, and dicts are
canonical (key-sorted, unique keys) sequences of entries so that
structural equality matches Python's dict equality. -/
inductive Val where
  | null : Val
  | bool (b : Bool) : Val
  | str (s : String) : Val
  | int (n : Int) : Val
  | nil : Val
  | cons (hd tl : Val) : Val
  | entry (key : String) (v : Val) : Val
deriving DecidableEq

/-- The `stability` mapping of a component's `status`: level name to list
of signal names (`{"beta": ["traces", "metrics"], ...}`). -/
abbrev Stability := List (String × List String)

/-- The `status` block of a component's metadata.  `stability` and
`distributions` use `Option (Option _)`: `none` = key absent,
`some none` = key present with null.  Remaining keys (`class`,
`codeowners`, ...) live in `extra`. -/
structure Status where
  stability : Option (Option Stability)
  distributions : Option (Option (List String))
  extra : List (String × Val)
deriving DecidableEq

/-- A component's `metadata` mapping. -/
structure Metadata where
  status : Option (Option Status)
  attributes : Option (Option (List (String × Val)))
  metrics : Option (Option (List (String × Val)))
  extra : List (String × Val)
deriving DecidableEq

/-- A component record as produced by the scanners: `name`, optional
`subtype`, optional `metadata` (possibly explicitly null), optional
`has_metadata` boolean and optional `source_repo` provenance tag. -/
structure Component where
  name : Option String
  subtype : Option String
  metadata : Option (Option Metadata)
  has_metadata : Option Bool
  source_repo : Option String
  extra : List (String × Val)
deriving DecidableEq

instance : Inhabited Component := ⟨⟨none, none, none, none, none, []⟩⟩

/-- An inventory as consumed by the merge and the detector: the
`components` mapping from component-type to list of records. -/
structure Inventory where
  components : List (String × List Component)
deriving DecidableEq

/-- `inventory.get("components", {}).get(t, [])`. -/
def compsOf (inv : Inventory) (t : String) : List Component :=
  (inv.components.lookup t).getD []

/-- Lexicographic `≤` on character lists, Python's string comparison by
code points. -/
def lexLe : List Char → List Char → Bool
  | [], _ => true
  | _ :: _, [] => false
  | c :: cs, d :: ds => if c = d then lexLe cs ds else decide (c < d)

/-- Python's `<=` on strings. -/
def strLeB (a b : String) : Bool :=
  lexLe a.data b.data

/-- Insert `x` before the first element `y` with `le x y`; the cell of a
stable insertion sort. -/
def insertLe {α : Type} (le : α → α → Bool) (x : α) : List α → List α
  | [] => [x]
  | y :: ys => if le x y then x :: y :: ys else y :: insertLe le x ys

/-- Stable insertion sort, the model of Python's `sorted`/`list.sort`
(stable for equal keys when `le` is total). -/
def sortLe {α : Type} (le : α → α → Bool) : List α → List α
  | [] => []
  | x :: xs => insertLe le x (sortLe le xs)

/-- Python's `sorted` on a list of strings. -/
def sortStr (l : List String) : List String :=
  sortLe strLeB l

/-- `sorted(set(xs) - set(ys))`. -/
def sortedDiff (xs ys : List String) : List String :=
  sortStr ((xs.filter (fun n => !(ys.contains n))).dedup)

/-- `sorted(set(xs) & set(ys))`. -/
def sortedInter (xs ys : List String) : List String :=
  sortStr ((xs.filter (fun n => ys.contains n)).dedup)

/-- `sorted(set(xs) | set(ys))`. -/
def sortedUnion (xs ys : List String) : List String :=
  sortStr ((xs ++ ys).dedup)

/-! ## Version (`collector_watcher/version_detector.py`) -/

/-- `Version` dataclass: major/minor/patch plus snapshot flag. -/
structure Version where
  major : Nat
  minor : Nat
  patch : Nat
  is_snapshot : Bool
deriving DecidableEq

/-- Numeric value of a digit string, as Python's `int`. -/
def natOfDigits (cs : List Char) : Nat :=
  cs.foldl (fun n c => 10 * n + (c.toNat - '0'.toNat)) 0

/-- The match of `re.match(r"^(\d+)\.(\d+)\.(\d+)$", s)` on the character
list of `s`, with the three captured groups as numbers. -/
def matchTriple (cs : List Char) : Option (Nat × Nat × Nat) :=
  let as := cs.takeWhile Char.isDigit
  let r0 := cs.dropWhile Char.isDigit
  let bs := r0.tail.takeWhile Char.isDigit
  let r1 := r0.tail.dropWhile Char.isDigit
  let ds := r1.tail.takeWhile Char.isDigit
  let r2 := r1.tail.dropWhile Char.isDigit
  if as ≠ [] ∧ r0.head? = some '.' ∧ bs ≠ [] ∧ r1.head? = some '.'
      ∧ ds ≠ [] ∧ r2 = [] then
    some (natOfDigits as, natOfDigits bs, natOfDigits ds)
  else none

/-- The `-SNAPSHOT` marker. -/
def snapshotChars : List Char := "-SNAPSHOT".data

/-- Python's `str.replace("-SNAPSHOT", "")`: remove every
non-overlapping occurrence, scanning left to right.  The extra `Nat` is
fuel, always called with at least the list length, so the `0, cs` arm
is never reached on those calls. -/
def removeSnapGo : Nat → List Char → List Char
  | _, [] => []
  | 0, cs => cs
  | fuel + 1, c :: rest =>
    if snapshotChars.isPrefixOf (c :: rest) then
      removeSnapGo fuel ((c :: rest).drop snapshotChars.length)
    else
      c :: removeSnapGo fuel rest

/-- `s.replace("-SNAPSHOT", "")` on a character list. -/
def removeSnap (cs : List Char) : List Char :=
  removeSnapGo cs.length cs

/-- `Version.from_string`: `lstrip("v")` (drops every leading `v`),
records a trailing `-SNAPSHOT` and, when present, deletes every
occurrence of `-SNAPSHOT` via `str.replace`, then matches the remainder
against `^(\d+)\.(\d+)\.(\d+)$`; raises `ValueError` otherwise. -/
def Version.fromString (s : String) : Except String Version :=
  let s1 := s.data.dropWhile (· = 'v')
  let is_snapshot := snapshotChars.isSuffixOf s1
  let s2 := if is_snapshot then removeSnap s1 else s1
  match matchTriple s2 with
  | some (a, b, c) => .ok ⟨a, b, c, is_snapshot⟩
  | none => .error "ValueError: Invalid version string"

/-- `Version.__str__`: `vMAJOR.MINOR.PATCH[-SNAPSHOT]`. -/
def Version.toStr (v : Version) : String :=
  "v" ++ toString v.major ++ "." ++ toString v.minor ++ "." ++ toString v.patch
    ++ (if v.is_snapshot then "-SNAPSHOT" else "")

/-- `Version.__lt__`: lexicographic on (major, minor, patch), then a
snapshot is less than the release with the same triple. -/
def Version.ltb (a b : Version) : Bool :=
  if a.major ≠ b.major then decide (a.major < b.major)
  else if a.minor ≠ b.minor then decide (a.minor < b.minor)
  else if a.patch ≠ b.patch then decide (a.patch < b.patch)
  else if a.is_snapshot ≠ b.is_snapshot then a.is_snapshot
  else false

/-! ## Versioned inventory store (`collector_watcher/inventory.py`) -/

/-- The result of `yaml.safe_load` on one persisted component-type file,
reduced to the two fields the loader reads (`data.get("components", [])`
and `data.get("repository", "")`). -/
structure FileData where
  components : List Component
  repository : String
deriving DecidableEq

/-- One version directory: the component-type files present in it. -/
structure DirData where
  files : List (String × FileData)
deriving DecidableEq

/-- The on-disk store: version directories keyed by
(distribution, canonical version string). -/
abbrev Store := List ((String × String) × DirData)

/-- `InventoryManager.COMPONENT_TYPES`. -/
def COMPONENT_TYPES : List String :=
  ["connector", "exporter", "extension", "processor", "receiver"]

/-- The dictionary returned by `load_versioned_inventory`.  `repository`
is optional because the early return for a missing version directory
does not put a `repository` key in the result. -/
structure LoadedInventory where
  distribution : String
  version : String
  repository : Option String
  components : List (String × List Component)
deriving DecidableEq

/-- `InventoryManager.load_versioned_inventory`: when the version
directory does not exist it returns
`{"distribution": d, "version": str(v), "components": {}}`; otherwise it
reads one file per component type (a missing file yields an empty list)
and takes the first non-empty `repository` value. -/
def loadVersionedInventory (store : Store) (dist : String) (v : Version) :
    LoadedInventory :=
  match store.lookup (dist, v.toStr) with
  | none => ⟨dist, v.toStr, none, []⟩
  | some dd =>
    let r := COMPONENT_TYPES.foldl
      (fun (acc : List (String × List Component) × String) t =>
        match dd.files.lookup t with
        | some fd => (acc.1 ++ [(t, fd.components)],
                      if acc.2 = "" then fd.repository else acc.2)
        | none => (acc.1 ++ [(t, [])], acc.2))
      ([], "")
    ⟨dist, v.toStr, some r.2, r.1⟩

/-! ## Version fallback (`docs_automation/update_docs.py`) -/

/-- `InventoryManager.version_exists`: the directory named `str(version)`
exists for the distribution. -/
def versionExists (dirs : List String) (v : Version) : Bool :=
  dirs.contains v.toStr

/-- `InventoryManager.list_versions`: parse every directory name,
silently skipping failures, and sort newest to oldest
(`sorted(versions, reverse=True)`, stable descending by `__lt__`). -/
def listVersions (dirs : List String) : List Version :=
  sortLe (fun a b => !(Version.ltb a b))
    (dirs.filterMap (fun d => (Version.fromString d).toOption))

/-- Python's `version <= target_version` on the `Version` dataclass.
`Version` defines only `__lt__` and `__eq__` (the dataclass is not
declared with `order=True` and `functools.total_ordering` is not used),
so no `__le__` or reflected `__ge__` exists and `<=` raises
`TypeError`. -/
def pyVersionLe (_a _b : Version) : Except String Bool :=
  .error "TypeError: '<=' not supported between instances of 'Version' and 'Version'"

/-- The `for version in all_versions: if version <= target_version:
return version` loop of `get_best_available_version`. -/
def bestLoop (target : Version) : List Version → Except String (Option Version)
  | [] => .ok none
  | v :: rest => do
    let c ← pyVersionLe v target
    if c then .ok (some v) else bestLoop target rest

/-- `get_best_available_version`: return the target if its directory
exists; otherwise fall back over the non-snapshot versions, newest
first, and finally to the oldest one. -/
def getBestAvailableVersion (dirs : List String) (target : Version) :
    Except String Version :=
  if versionExists dirs target then .ok target
  else
    let allVersions := (listVersions dirs).filter (fun v => !v.is_snapshot)
    if allVersions.isEmpty then .error "ValueError: No versions found"
    else do
      match ← bestLoop target allVersions with
      | some v => .ok v
      | none => .ok (allVersions.getLastD target)

/-! ## Changelog comparator (`docs_automation/changelog_generator.py`) -/

/-- `ChangelogGenerator._get_component_key`. -/
def getComponentKey (c : Component) : String :=
  c.name.getD "unknown"

/-- `component.get("metadata", {})`, which hands back null unchanged;
the subsequent `.get` on null raises `AttributeError`. -/
def pyMetaOf (c : Component) : Except String Metadata :=
  match c.metadata with
  | none => .ok ⟨none, none, none, []⟩
  | some none => .error "AttributeError"
  | some (some m) => .ok m

/-- `metadata.get("status", {})` followed by attribute access on the
result. -/
def pyStatusOf (m : Metadata) : Except String Status :=
  match m.status with
  | none => .ok ⟨none, none, []⟩
  | some none => .error "AttributeError"
  | some (some s) => .ok s

/-- Insert into an association list with Python dict semantics: replace
the value in place when the key exists, else append. -/
def dictInsert {κ α : Type} [BEq κ] (m : List (κ × α)) (k : κ) (v : α) :
    List (κ × α) :=
  if m.any (fun p => p.1 == k) then
    m.map (fun p => if p.1 == k then (k, v) else p)
  else m ++ [(k, v)]

/-- Order-insensitive comparison of two string-valued dicts with unique
keys, as Python's `==` on dicts. -/
def dictEqStr (a b : List (String × String)) : Bool :=
  sortLe (fun x y => strLeB x.1 y.1) a == sortLe (fun x y => strLeB x.1 y.1) b

/-- Equality of two string sets given as lists. -/
def setEqStr (a b : List String) : Bool :=
  sortStr a.dedup == sortStr b.dedup

/-- `ChangelogGenerator._get_stability_summary`: flatten the stability
mapping into signal → level (later levels overwrite earlier ones).  In
the model every stability value is a list of signal names, so the
`isinstance(signals, list)` guard is always true. -/
def getStabilitySummary (c : Component) : Except String (List (String × String)) := do
  let m ← pyMetaOf c
  let st ← pyStatusOf m
  let stab ← match st.stability with
    | none => pure ([] : Stability)
    | some none => .error "AttributeError"
    | some (some x) => pure x
  .ok (stab.foldl (fun acc p =>
        p.2.foldl (fun acc2 sig => dictInsert acc2 sig p.1) acc) [])

/-- `ChangelogGenerator._get_distributions`: the set of declared
distributions; a null or empty `distributions` value yields the empty
set. -/
def getDistributions (c : Component) : Except String (List String) := do
  let m ← pyMetaOf c
  let st ← pyStatusOf m
  match st.distributions with
  | none => .ok []
  | some none => .ok []
  | some (some ds) => .ok ds

/-- A stability change entry: name, old summary, new summary. -/
abbrev StabChange := String × List (String × String) × List (String × String)

/-- A distribution change entry: name, added, removed. -/
abbrev DistChange := String × List String × List String

/-- The result of `ChangelogGenerator.compare_component_type`. -/
structure TypeChanges where
  added : List String
  removed : List String
  stability_changed : List StabChange
  distribution_changed : List DistChange
deriving DecidableEq

/-- `{self._get_component_key(c): c for c in components}[name]`: the
last record with the given key wins, as in a Python dict
comprehension. -/
def clLookup (cs : List Component) (n : String) : Component :=
  ((cs.filter (fun c => getComponentKey c == n)).getLast?).getD default

/-- The `for name in sorted(old_keys & new_keys)` loop of
`compare_component_type`, collecting stability and distribution
changes. -/
def compareLoop (componentType : String) (oldCs newCs : List Component) :
    List String → Except String (List StabChange × List DistChange)
  | [] => .ok ([], [])
  | n :: ns => do
    let oc := clLookup oldCs n
    let nc := clLookup newCs n
    let stabPart ←
      if componentType != "connector" then do
        let os ← getStabilitySummary oc
        let nsm ← getStabilitySummary nc
        if !dictEqStr os nsm then pure [(n, os, nsm)] else pure []
      else pure ([] : List StabChange)
    let od ← getDistributions oc
    let nd ← getDistributions nc
    let distPart := if !setEqStr od nd then
        [(n, sortedDiff nd od, sortedDiff od nd)] else []
    let (ss, ds) ← compareLoop componentType oldCs newCs ns
    .ok (stabPart ++ ss, distPart ++ ds)

/-- `ChangelogGenerator.compare_component_type`: additions, removals,
stability changes and distribution changes for one component type.
Note: the implementation computes `added = sorted(new_keys - old_keys)`
unconditionally; it contains no `subtype`-based filtering. -/
def compareComponentType (componentType : String)
    (oldComponents newComponents : List Component) :
    Except String TypeChanges := do
  let oldKeys := oldComponents.map getComponentKey
  let newKeys := newComponents.map getComponentKey
  let added := sortedDiff newKeys oldKeys
  let removed := sortedDiff oldKeys newKeys
  let (stabChanged, distChanged) ←
    compareLoop componentType oldComponents newComponents
      (sortedInter oldKeys newKeys)
  .ok ⟨added, removed, stabChanged, distChanged⟩

/-! ## Change detector (`collector_watcher/detector.py`) -/

/-- The `ChangeType` enum. -/
inductive ChangeType where
  | component_added
  | component_removed
  | metadata_added
  | metadata_removed
  | stability_changed
  | attribute_added
  | attribute_removed
  | attribute_modified
  | metric_added
  | metric_removed
  | metric_modified
deriving DecidableEq

/-- The dynamically-typed `Any` payload of a `Change`'s `old_value`,
`new_value` and `details` entries. -/
inductive AnyVal where
  | none : AnyVal
  | comp (c : Component) : AnyVal
  | meta (m : Metadata) : AnyVal
  | stab (s : Option Stability) : AnyVal
  | val (v : Val) : AnyVal
  | str (s : String) : AnyVal
deriving DecidableEq

/-- The `Change` dataclass. -/
structure Change where
  change_type : ChangeType
  component_type : String
  component_name : String
  description : String
  old_value : AnyVal
  new_value : AnyVal
  details : List (String × AnyVal)
deriving DecidableEq

/-- The fixed component-type iteration order of `detect_all_changes`. -/
def detOrder : List String :=
  ["connector", "exporter", "extension", "processor", "receiver"]

/-- The keys of `{c["name"]: c for c in comps}`: every record must carry
a `name` key or the comprehension raises `KeyError`. -/
def namesOf : List Component → Except String (List String)
  | [] => .ok []
  | c :: cs =>
    match c.name with
    | some n => do
      let ns ← namesOf cs
      .ok (n :: ns)
    | none => .error "KeyError: name"

/-- `{c["name"]: c for c in comps}[n]`: the last record with the name
wins.  Only evaluated at names known to be present. -/
def lookupComp (cs : List Component) (n : String) : Component :=
  ((cs.filter (fun c => c.name == some n)).getLast?).getD default

/-- `"metadata" in component or component.get("has_metadata", False)`. -/
def hasMetaFlag (c : Component) : Bool :=
  c.metadata.isSome || c.has_metadata.getD false

/-- `status.get("stability", {})`: `none` is an explicit null (kept and
compared as `None`), an absent key defaults to the empty dict. -/
def stabilityFetch (s : Status) : Option Stability :=
  match s.stability with
  | none => some []
  | some none => none
  | some (some x) => some x

/-- `metadata.get("attributes", {})` / `metadata.get("metrics", {})`
followed by `.keys()` on the result, which raises on null. -/
def attrsFetch (o : Option (Option (List (String × Val)))) :
    Except String (List (String × Val)) :=
  match o with
  | none => .ok []
  | some none => .error "AttributeError"
  | some (some a) => .ok a

/-- `component.get("metadata")` as an `Any`: null and absent both give
Python `None`. -/
def metaAnyVal (c : Component) : AnyVal :=
  match c.metadata with
  | some (some m) => .meta m
  | _ => .none

/-- One `COMPONENT_ADDED` change. -/
def mkAdded (t : String) (newCs : List Component) (n : String) : Change :=
  { change_type := .component_added
    component_type := t
    component_name := n
    description := "New " ++ t ++ " component added: " ++ n
    old_value := .none
    new_value := .comp (lookupComp newCs n)
    details := [] }

/-- One `COMPONENT_REMOVED` change. -/
def mkRemoved (t : String) (oldCs : List Component) (n : String) : Change :=
  { change_type := .component_removed
    component_type := t
    component_name := n
    description := "Component removed: " ++ t ++ "/" ++ n
    old_value := .comp (lookupComp oldCs n)
    new_value := .none
    details := [] }

/-- The common shape of `_detect_attribute_changes` and
`_detect_metric_changes`: additions, removals, then modifications, each
sorted by key. -/
def fieldDiffs (ctAdd ctRem ctMod : ChangeType) (word detailKey : String)
    (t n : String) (oldA newA : List (String × Val)) : List Change :=
  (sortedDiff (newA.map Prod.fst) (oldA.map Prod.fst)).map (fun k =>
    { change_type := ctAdd
      component_type := t
      component_name := n
      description := word ++ " '" ++ k ++ "' added to " ++ t ++ "/" ++ n
      old_value := .none
      new_value := .val ((newA.lookup k).getD .null)
      details := [(detailKey, .str k)] })
  ++ (sortedDiff (oldA.map Prod.fst) (newA.map Prod.fst)).map (fun k =>
    { change_type := ctRem
      component_type := t
      component_name := n
      description := word ++ " '" ++ k ++ "' removed from " ++ t ++ "/" ++ n
      old_value := .val ((oldA.lookup k).getD .null)
      new_value := .none
      details := [(detailKey, .str k)] })
  ++ (sortedInter (oldA.map Prod.fst) (newA.map Prod.fst)).filterMap (fun k =>
    let ov := (oldA.lookup k).getD .null
    let nv := (newA.lookup k).getD .null
    if ov = nv then Option.none
    else some
      { change_type := ctMod
        component_type := t
        component_name := n
        description := word ++ " '" ++ k ++ "' modified in " ++ t ++ "/" ++ n
        old_value := .val ov
        new_value := .val nv
        details := [(detailKey, .str k)] })

/-- `_detect_stability_changes`: compare the two stability mappings as a
whole. -/
def stabilityChanges (t n : String) (om nm : Metadata) :
    Except String (List Change) := do
  let os ← pyStatusOf om
  let ns ← pyStatusOf nm
  let ov := stabilityFetch os
  let nv := stabilityFetch ns
  .ok (if ov = nv then []
  else
    [{ change_type := .stability_changed
       component_type := t
       component_name := n
       description := "Stability changed for " ++ t ++ "/" ++ n
       old_value := .stab ov
       new_value := .stab nv
       details := [("old_stability", .stab ov), ("new_stability", .stab nv)] }])

/-- `_detect_metadata_changes` for one component present in both
snapshots. -/
def detectMetadataChangesFor (t n : String) (oldC newC : Component) :
    Except String (List Change) :=
  let oldHas := hasMetaFlag oldC
  let newHas := hasMetaFlag newC
  if !oldHas && newHas then
    .ok [{ change_type := .metadata_added
           component_type := t
           component_name := n
           description := "Metadata added to " ++ t ++ "/" ++ n
           old_value := .none
           new_value := metaAnyVal newC
           details := [] }]
  else if oldHas && !newHas then
    .ok [{ change_type := .metadata_removed
           component_type := t
           component_name := n
           description := "Metadata removed from " ++ t ++ "/" ++ n
           old_value := metaAnyVal oldC
           new_value := .none
           details := [] }]
  else if oldHas && newHas then do
    let om ← pyMetaOf oldC
    let nm ← pyMetaOf newC
    let stCh ← stabilityChanges t n om nm
    let oldAt ← attrsFetch om.attributes
    let newAt ← attrsFetch nm.attributes
    let atCh := fieldDiffs .attribute_added .attribute_removed .attribute_modified
      "Attribute" "attribute_name" t n oldAt newAt
    let oldMe ← attrsFetch om.metrics
    let newMe ← attrsFetch nm.metrics
    let meCh := fieldDiffs .metric_added .metric_removed .metric_modified
      "Metric" "metric_name" t n oldMe newMe
    .ok (stCh ++ atCh ++ meCh)
  else .ok []

/-- The `for name in sorted(old_names & new_names)` loop: one group of
changes per surviving component. -/
def subBlocks (t : String) (oldCs newCs : List Component) :
    List String → Except String (List (List Change))
  | [] => .ok []
  | n :: ns => do
    let g ← detectMetadataChangesFor t n (lookupComp oldCs n) (lookupComp newCs n)
    let gs ← subBlocks t oldCs newCs ns
    .ok (g :: gs)

/-- `_detect_component_changes`: additions, removals, then per-name
metadata comparison, all name-sorted. -/
def detectComponentChanges (t : String) (oldCs newCs : List Component) :
    Except String (List Change) := do
  let oldNames ← namesOf oldCs
  let newNames ← namesOf newCs
  let gs ← subBlocks t oldCs newCs (sortedInter oldNames newNames)
  .ok ((sortedDiff newNames oldNames).map (mkAdded t newCs)
    ++ (sortedDiff oldNames newNames).map (mkRemoved t oldCs)
    ++ gs.flatten)

/-- The loop of `detect_all_changes` over the fixed component-type
order. -/
def detectTypes (old new : Inventory) : List String → Except String (List Change)
  | [] => .ok []
  | t :: ts => do
    let b ← detectComponentChanges t (compsOf old t) (compsOf new t)
    let r ← detectTypes old new ts
    .ok (b ++ r)

/-- `ChangeDetector.detect_all_changes`. -/
def detectAllChanges (old new : Inventory) : Except String (List Change) :=
  detectTypes old new detOrder

/-- Well-formedness of one metadata blob for the detector: the nested
`status`, `attributes` and `metrics` keys, when present, hold mappings
rather than null. -/
def wfMetadata (m : Metadata) : Bool :=
  m.status != some (Option.none (α := Status))
    && m.attributes != some Option.none
    && m.metrics != some Option.none

/-- Well-formedness of one component record for the detector: a `name`
key is present, and the `metadata` key, when present, holds a mapping
(whose nested keys are themselves non-null). -/
def wfComponent (c : Component) : Bool :=
  c.name.isSome &&
    (match c.metadata with
     | some Option.none => false
     | some (some m) => wfMetadata m
     | Option.none => true)

/-- Well-formedness of an inventory for the detector. -/
def wfInventory (inv : Inventory) : Bool :=
  detOrder.all (fun t => (compsOf inv t).all wfComponent)

/-- `Except` success flag. -/
def exceptIsOk {α : Type} : Except String α → Bool
  | .ok _ => true
  | .error _ => false

/-! ## Docs-update merge (`docs_automation/update_docs.py`,
`merge_inventories`) -/

/-- `existing.get("metadata", {}).get("status", {}).get("distributions",
[])` followed by `set(...)` on the result: null `metadata` or `status`
raises `AttributeError` at `.get`, a null `distributions` raises
`TypeError` at `set(...)`. -/
def distsOf (c : Component) : Except String (List String) :=
  match c.metadata with
  | none => .ok []
  | some none => .error "AttributeError"
  | some (some m) =>
    match m.status with
    | none => .ok []
    | some none => .error "AttributeError"
    | some (some st) =>
      match st.distributions with
      | none => .ok []
      | some none => .error "TypeError: 'NoneType' object is not iterable"
      | some (some ds) => .ok ds

/-- Truthiness of `comp.get("metadata")`: a non-empty metadata dict. -/
def metaTruthy (c : Component) : Bool :=
  match c.metadata with
  | some (some m) =>
    m.status.isSome || m.attributes.isSome || m.metrics.isSome || !m.extra.isEmpty
  | _ => false

/-- The tail of the both-distributions branch: ensure the `metadata` and
`status` dicts exist, then assign the merged `distributions` list.  A
null `metadata`/`status` cannot reach this point because `distsOf` has
already raised on it. -/
def setDistributions (c : Component) (ds : List String) : Component :=
  let m := match c.metadata with
    | some (some m) => m
    | _ => (⟨none, none, none, []⟩ : Metadata)
  let st := match m.status with
    | some (some s) => s
    | _ => (⟨none, none, []⟩ : Status)
  { c with metadata := some (some { m with
      status := some (some { st with distributions := some (some ds) }) }) }

/-- The body of the `name in component_map` branch of
`merge_inventories`: union the declared distributions of both records,
adopt contrib's metadata only when the kept record has no truthy
metadata, keep everything else (including `source_repo = "core"`). -/
def mergeBoth (existing comp : Component) : Except String Component := do
  let exd ← distsOf existing
  let cod ← distsOf comp
  let allD := sortedUnion exd cod
  let base :=
    if metaTruthy comp && !(metaTruthy existing) then
      { existing with metadata := comp.metadata }
    else existing
  .ok (setDistributions base allD)

/-- The contrib loop of `merge_inventories` over `component_map`. -/
def contribFold (t : String) :
    List (Option String × Component) → List Component →
    Except String (List (Option String × Component))
  | m, [] => .ok m
  | m, comp :: rest =>
    if comp.name == some ("x" ++ t) then contribFold t m rest
    else
      match m.lookup comp.name with
      | some existing => do
        let merged ← mergeBoth existing comp
        contribFold t (dictInsert m comp.name merged) rest
      | none =>
        contribFold t
          (dictInsert m comp.name { comp with source_repo := some "contrib" }) rest

/-- `merge_inventories` for one component type: build the name map from
core (tagging `source_repo = "core"` and skipping the `x<type>`
marker), fold contrib into it, and sort the values by name. -/
def mergeTypeUD (t : String) (coreComps contribComps : List Component) :
    Except String (List Component) := do
  let m1 := coreComps.foldl (fun m comp =>
    if comp.name == some ("x" ++ t) then m
    else dictInsert m comp.name { comp with source_repo := some "core" }) []
  let m2 ← contribFold t m1 contribComps
  .ok (sortLe (fun a b => strLeB (a.name.getD "") (b.name.getD ""))
    (m2.map Prod.snd))

/-- The loop of `merge_inventories` over all component types. -/
def mergeTypesUD (core contrib : Inventory) :
    List String → Except String (List (String × List Component))
  | [] => .ok []
  | t :: ts => do
    let l ← mergeTypeUD t (compsOf core t) (compsOf contrib t)
    let r ← mergeTypesUD core contrib ts
    .ok ((t, l) :: r)

/-- `merge_inventories(core_inventory, contrib_inventory)`.  Python
iterates `set(core types) | set(contrib types)` in unspecified set
order; the model fixes the canonical sorted order of that set. -/
def mergeInventoriesUD (core contrib : Inventory) : Except String Inventory := do
  let allTypes := sortStr
    ((core.components.map Prod.fst ++ contrib.components.map Prod.fst).dedup)
  let comps ← mergeTypesUD core contrib allTypes
  .ok ⟨comps⟩

/-! ## Scanner-level merge (`collector_watcher/multi_repo_scanner.py`,
`MultiRepoScanner._merge_inventories`) -/

/-- A scanner result: component-type to record list, the per-repo input
shape of `_merge_inventories`. -/
abbrev TypedComps := List (String × List Component)

/-- One value of `components_by_name`: the repos that saw the name and
the record kept for it. -/
structure RepoEntry where
  repos : List String
  component : Component
deriving DecidableEq

/-- The fixed component-type order of `_merge_inventories`. -/
def mrTypes : List String :=
  ["receiver", "processor", "exporter", "connector", "extension"]

/-- The inner record loop of `_merge_inventories`: skip records with a
falsy name; first sighting stores the record, repeat sightings append
the repo and let a "contrib" record replace the kept one. -/
def mrScanComps (repoName : String) (m : List (String × RepoEntry)) :
    List Component → List (String × RepoEntry)
  | [] => m
  | comp :: rest =>
    let m2 :=
      match comp.name with
      | none => m
      | some n =>
        if n = "" then m
        else
          match m.lookup n with
          | none => dictInsert m n ⟨[repoName], comp⟩
          | some e =>
            dictInsert m n
              { repos := e.repos ++ [repoName]
                component := if repoName = "contrib" then comp else e.component }
    mrScanComps repoName m2 rest

/-- The repo loop of `_merge_inventories` for one component type,
iterating the input mapping in insertion order. -/
def mrCollectGo (t : String) (m : List (String × RepoEntry)) :
    List (String × TypedComps) → List (String × RepoEntry)
  | [] => m
  | (repoName, inv) :: rest =>
    mrCollectGo t (mrScanComps repoName m ((inv.lookup t).getD [])) rest

/-- The final build step of `_merge_inventories` for one
`components_by_name` entry: ensure `metadata`/`status` exist (raising
`TypeError` when either key holds null, as `"status" not in None` and
`None["distributions"] = ...` do) and set `distributions` from the
sighting repos. -/
def mrFinalize (e : RepoEntry) : Except String Component := do
  let comp := e.component
  let m ← match comp.metadata with
    | none => .ok (⟨none, none, none, []⟩ : Metadata)
    | some none => .error "TypeError: argument of type 'NoneType' is not iterable"
    | some (some m) => .ok m
  let st ← match m.status with
    | none => .ok (⟨none, none, []⟩ : Status)
    | some none => .error "TypeError: 'NoneType' object does not support item assignment"
    | some (some s) => .ok s
  let distributions :=
    (if e.repos.contains "core" then ["core"] else [])
      ++ (if e.repos.contains "contrib" then ["contrib"] else [])
  .ok { comp with metadata := some (some { m with
    status := some (some { st with
      distributions := some (some (sortStr distributions)) }) }) }

/-- Finalize every `components_by_name` entry in insertion order. -/
def mrFinalizeList : List (String × RepoEntry) → Except String (List Component)
  | [] => .ok []
  | (_, e) :: rest => do
    let c ← mrFinalize e
    let cs ← mrFinalizeList rest
    .ok (c :: cs)

/-- `_merge_inventories` for one component type. -/
def mergeTypeMR (inventories : List (String × TypedComps)) (t : String) :
    Except String (List Component) := do
  let comps ← mrFinalizeList (mrCollectGo t [] inventories)
  .ok (sortLe (fun a b => strLeB (a.name.getD "") (b.name.getD "")) comps)

/-- The type loop of `_merge_inventories` (the surrounding dict also
carries a fixed `repository` banner string, not modelled). -/
def mergeTypesMR (inventories : List (String × TypedComps)) :
    List String → Except String (List (String × List Component))
  | [] => .ok []
  | t :: ts => do
    let l ← mergeTypeMR inventories t
    let r ← mergeTypesMR inventories ts
    .ok ((t, l) :: r)

/-- `MultiRepoScanner._merge_inventories`: the merged `components`
mapping. -/
def mergeInventoriesMR (inventories : List (String × TypedComps)) :
    Except String (List (String × List Component)) :=
  mergeTypesMR inventories mrTypes

/-! ## Concrete inputs used by counterexamples and witnesses -/

/-- An empty metadata dict (`"metadata": {}`). -/
def emptyMeta : Metadata := ⟨none, none, none, []⟩

/-- The old extension list of the repository's own
`test_scanner_capability_change_filters_false_positives` test. -/
def clogOld : List Component :=
  [⟨some "healthcheckextension", none, some (some emptyMeta), none, none, []⟩,
   ⟨some "pprofextension", none, some (some emptyMeta), none, none, []⟩]

/-- The new extension list of the same test: one genuinely new
extension plus two `subtype="encoding"` entries. -/
def clogNew : List Component :=
  [⟨some "healthcheckextension", none, some (some emptyMeta), none, none, []⟩,
   ⟨some "pprofextension", none, some (some emptyMeta), none, none, []⟩,
   ⟨some "newextension", none, some (some emptyMeta), none, none, []⟩,
   ⟨some "jsonencodingextension", some "encoding", some (some emptyMeta), none, none, []⟩,
   ⟨some "avroencondingextension", some "encoding", some (some emptyMeta), none, none, []⟩]

/-- C4 counterexample input: a receiver whose `metadata` key is present
with a null value. -/
def nullMetaInv : Inventory :=
  ⟨[("receiver", [⟨some "r", none, some none, none, none, []⟩])]⟩

/-- C8 witness input: a small well-formed inventory with two component
types, metadata with stability, and a metadata-less component. -/
def selfInv : Inventory :=
  ⟨[("receiver",
     [⟨some "a", none,
       some (some ⟨some (some ⟨some (some [("alpha", ["traces"])]), none, []⟩),
         some (some [("direction", .str "in")]), none, []⟩), none, none, []⟩,
      ⟨some "b", none, none, some false, none, []⟩]),
    ("exporter", [⟨some "e", none, some (some emptyMeta), some true, none, []⟩])]⟩

/-- C4 witness input: a well-formed new inventory differing from
`selfInv`. -/
def otherInv : Inventory :=
  ⟨[("receiver", [⟨some "a", none, some (some emptyMeta), none, none, []⟩]),
    ("connector", [⟨some "c", none, none, none, none, []⟩])]⟩

/-- A change type that is not a component addition or removal: metadata
add/remove or a field-level (stability/attribute/metric) change. -/
def metaOrFieldType (ct : ChangeType) : Prop :=
  ct ≠ .component_added ∧ ct ≠ .component_removed

/-- Alphabetically ordered (by Python string comparison). -/
def strSorted (ns : List String) : Prop :=
  List.Pairwise (fun a b => strLeB a b = true) ns

/-- The ordering contract of one component type's emitted block: all
`COMPONENT_ADDED` changes first in name order, then all
`COMPONENT_REMOVED` in name order, then one contiguous group per
surviving component in name order, each group holding only that
component's metadata-add/remove or field-level changes. -/
def TypeBlockOK (t : String) (block : List Change) : Prop :=
  ∃ adds rems names groups,
    block = adds ++ rems ++ List.flatten groups ∧
    (∀ c ∈ adds, c.change_type = .component_added ∧ c.component_type = t) ∧
    strSorted (adds.map Change.component_name) ∧
    (∀ c ∈ rems, c.change_type = .component_removed ∧ c.component_type = t) ∧
    strSorted (rems.map Change.component_name) ∧
    strSorted names ∧
    List.Forall₂ (fun n g => ∀ c ∈ g,
      c.component_type = t ∧ c.component_name = n ∧ metaOrFieldType c.change_type)
      names groups

/-- C9 counterexample inputs: under `connector`, component `"a"` has a
stability change and component `"b"` gains metadata. -/
def c9Old : Inventory :=
  ⟨[("connector",
     [⟨some "a", none,
       some (some ⟨some (some ⟨some (some [("alpha", ["traces"])]), none, []⟩),
         none, none, []⟩), none, none, []⟩,
      ⟨some "b", none, none, none, none, []⟩])]⟩

/-- C9 counterexample inputs, new snapshot. -/
def c9New : Inventory :=
  ⟨[("connector",
     [⟨some "a", none,
       some (some ⟨some (some ⟨some (some [("beta", ["traces"])]), none, []⟩),
         none, none, []⟩), none, none, []⟩,
      ⟨some "b", none, some (some emptyMeta), none, none, []⟩])]⟩

/-- The change list of the C9 counterexample run. -/
def c9Out : List Change :=
  (detectAllChanges c9Old c9New).toOption.getD []

/-- C10 counterexample input: a source handed to the scanner-level merge
containing the experimental `xreceiver` marker. -/
def xrecInvs : List (String × TypedComps) :=
  [("core", [("receiver", [⟨some "xreceiver", none, none, none, none, []⟩])])]

/-- C10 witness inputs: core has `xreceiver` and `foo`, contrib has
`xreceiver` only. -/
def c10core : Inventory :=
  ⟨[("receiver", [⟨some "xreceiver", none, none, none, none, []⟩,
                  ⟨some "foo", none, none, none, none, []⟩])]⟩

/-- C10 witness inputs, contrib side. -/
def c10contrib : Inventory :=
  ⟨[("receiver", [⟨some "xreceiver", none, none, none, none, []⟩])]⟩

/-- The merged output of the C10 witness run. -/
def c10m : Inventory :=
  (mergeInventoriesUD c10core c10contrib).toOption.getD ⟨[]⟩

/-- The receiver list of the C10 witness run. -/
def c10l : List Component := (c10m.components.lookup "receiver").getD []

/-- The surviving record of the C10 witness run. -/
def c10rec : Component := c10l.headD default

/-- Whether the source named `r` (among the inputs of the scanner-level
merge) lists a record named `n` under component type `t`. -/
def mrSaw (invs : List (String × TypedComps)) (t r n : String) : Bool :=
  invs.any (fun p => r == p.1
    && ((p.2.lookup t).getD []).any (fun c => c.name == some n))

/-- The loop invariant of `_merge_inventories`'s `components_by_name`
map, relative to the sightings `prior` accumulated so far: every entry
is keyed by its record's (truthy) name, its `repos` hold exactly the
repos that saw the name, and every seen name has an entry. -/
def ScanInv (prior : String → String → Bool)
    (m : List (String × RepoEntry)) : Prop :=
  (∀ p ∈ m, p.2.component.name = some p.1 ∧ p.1 ≠ "") ∧
  (∀ p ∈ m, ∀ r, r ∈ p.2.repos ↔ prior r p.1 = true) ∧
  (∀ n r, n ≠ "" → prior r n = true → ((m.lookup n).isSome = true))

/-- C2 counterexample input: a contrib-only receiver whose metadata
declares distributions `["foo"]`. -/
def c2contrib : Inventory :=
  ⟨[("receiver",
     [⟨some "bar", none,
       some (some ⟨some (some ⟨none, some (some ["foo"]), []⟩), none, none, []⟩),
       none, none, []⟩])]⟩

/-- C2 witness input: the same record seen by both core and contrib. -/
def c2invs : List (String × TypedComps) :=
  [("core", [("receiver", [⟨some "r", none, none, none, none, []⟩])]),
   ("contrib", [("receiver", [⟨some "r", none, none, none, none, []⟩])])]

/-- The merged mapping of the C2 witness run. -/
def c2m : List (String × List Component) :=
  (mergeInventoriesMR c2invs).toOption.getD []

/-- The receiver list of the C2 witness run. -/
def c2l : List Component := (c2m.lookup "receiver").getD []

/-- The merged record of the C2 witness run. -/
def c2c : Component := c2l.headD default

/-- C1 counterexample, core record: truthy metadata with `class =
"corecls"`. -/
def c1cCore : Component :=
  ⟨some "foo", none,
   some (some ⟨none, none, none, [("class", Val.str "corecls")]⟩),
   none, none, []⟩

/-- C1 counterexample, contrib record: truthy metadata with `class =
"contribcls"`. -/
def c1cContrib : Component :=
  ⟨some "foo", none,
   some (some ⟨none, none, none, [("class", Val.str "contribcls")]⟩),
   none, none, []⟩

/-- C1 counterexample core inventory. -/
def c1core : Inventory := ⟨[("receiver", [c1cCore])]⟩

/-- C1 counterexample contrib inventory. -/
def c1contrib : Inventory := ⟨[("receiver", [c1cContrib])]⟩

/-- The merged inventory of the C1 witness run. -/
def c1m : Inventory := (mergeInventoriesUD c1core c1contrib).toOption.getD ⟨[]⟩

/-- The receiver list of the C1 witness run. -/
def c1l : List Component := (c1m.components.lookup "receiver").getD []

/-! ## Supporting lemmas -/

theorem mem_insertLe {α : Type} (le : α → α → Bool) (x a : α) (l : List α) :
    a ∈ insertLe le x l ↔ a = x ∨ a ∈ l := by
  induction l with
  | nil => simp [insertLe]
  | cons y ys ih =>
    simp only [insertLe]
    split
    · simp [List.mem_cons]
    · simp only [List.mem_cons, ih]
      tauto

theorem mem_sortLe {α : Type} (le : α → α → Bool) (a : α) (l : List α) :
    a ∈ sortLe le l ↔ a ∈ l := by
  induction l with
  | nil => simp [sortLe]
  | cons x xs ih =>
    simp only [sortLe, mem_insertLe, List.mem_cons, ih]

theorem pairwise_insertLe {α : Type} (le : α → α → Bool)
    (htot : ∀ a b, le a b || le b a)
    (htrans : ∀ a b c, le a b = true → le b c = true → le a c = true)
    (x : α) (l : List α)
    (h : List.Pairwise (fun a b => le a b = true) l) :
    List.Pairwise (fun a b => le a b = true) (insertLe le x l) := by
  induction l with
  | nil => simp [insertLe]
  | cons y ys ih =>
    rcases List.pairwise_cons.1 h with ⟨hy, hys⟩
    simp only [insertLe]
    split
    · rename_i hxy
      refine List.pairwise_cons.2 ⟨?_, h⟩
      intro b hb
      rcases List.mem_cons.1 hb with rfl | hb
      · exact hxy
      · exact htrans x y b hxy (hy b hb)
    · rename_i hxy
      refine List.pairwise_cons.2 ⟨?_, ih hys⟩
      intro b hb
      rcases (mem_insertLe le x b ys).1 hb with rfl | hb
      · have := htot b y
        cases hle : le b y with
        | true => exact absurd hle hxy
        | false =>
          rw [hle] at this
          simpa using this
      · exact hy b hb

theorem pairwise_sortLe {α : Type} (le : α → α → Bool)
    (htot : ∀ a b, le a b || le b a)
    (htrans : ∀ a b c, le a b = true → le b c = true → le a c = true)
    (l : List α) :
    List.Pairwise (fun a b => le a b = true) (sortLe le l) := by
  induction l with
  | nil => simp [sortLe]
  | cons x xs ih => exact pairwise_insertLe le htot htrans x _ ih

theorem lexLe_total (a b : List Char) : lexLe a b || lexLe b a := by
  induction a generalizing b with
  | nil => simp [lexLe]
  | cons c cs ih =>
    cases b with
    | nil => simp [lexLe]
    | cons d ds =>
      simp only [lexLe]
      by_cases hcd : c = d
      · subst hcd
        simpa using ih ds
      · rcases lt_or_gt_of_ne hcd with h | h
        · simp [hcd, Ne.symm hcd, h]
        · simp [hcd, Ne.symm hcd, h, not_lt_of_gt h]

theorem lexLe_trans (a b c : List Char)
    (hab : lexLe a b = true) (hbc : lexLe b c = true) : lexLe a c = true := by
  induction a generalizing b c with
  | nil => simp [lexLe]
  | cons x xs ih =>
    cases b with
    | nil => simp [lexLe] at hab
    | cons y ys =>
      cases c with
      | nil => simp [lexLe] at hbc
      | cons z zs =>
        simp only [lexLe] at hab hbc ⊢
        by_cases hxy : x = y
        · subst hxy
          by_cases hyz : x = z
          · subst hyz
            simp only [if_pos rfl] at hab hbc ⊢
            exact ih ys zs (by simpa using hab) (by simpa using hbc)
          · simp only [if_neg hyz] at hbc ⊢
            simpa using hbc
        · simp only [if_neg hxy] at hab
          by_cases hyz : y = z
          · subst hyz
            simp only [if_neg hxy]
            simpa using hab
          · simp only [if_neg hyz] at hbc
            have hxz : x < z := lt_trans (by simpa using hab) (by simpa using hbc)
            simp [ne_of_lt hxz, hxz]

theorem strLeB_total (a b : String) : strLeB a b || strLeB b a :=
  lexLe_total a.data b.data

theorem strLeB_trans (a b c : String)
    (hab : strLeB a b = true) (hbc : strLeB b c = true) : strLeB a c = true :=
  lexLe_trans a.data b.data c.data hab hbc

theorem pairwise_sortStr (l : List String) :
    List.Pairwise (fun a b => strLeB a b = true) (sortStr l) :=
  pairwise_sortLe strLeB strLeB_total strLeB_trans l

theorem mem_sortStr (a : String) (l : List String) :
    a ∈ sortStr l ↔ a ∈ l :=
  mem_sortLe strLeB a l

theorem pairwise_sortedDiff (xs ys : List String) :
    List.Pairwise (fun a b => strLeB a b = true) (sortedDiff xs ys) :=
  pairwise_sortStr _

theorem pairwise_sortedInter (xs ys : List String) :
    List.Pairwise (fun a b => strLeB a b = true) (sortedInter xs ys) :=
  pairwise_sortStr _

theorem mem_sortedDiff (a : String) (xs ys : List String) :
    a ∈ sortedDiff xs ys ↔ a ∈ xs ∧ ¬ a ∈ ys := by
  simp [sortedDiff, mem_sortStr, List.mem_dedup, List.mem_filter]

theorem mem_sortedInter (a : String) (xs ys : List String) :
    a ∈ sortedInter xs ys ↔ a ∈ xs ∧ a ∈ ys := by
  simp [sortedInter, mem_sortStr, List.mem_dedup, List.mem_filter]

theorem sortedDiff_self (xs : List String) : sortedDiff xs xs = [] := by
  have h : (xs.filter (fun n => !(xs.contains n))) = [] := by
    rw [List.filter_eq_nil_iff]
    intro a ha
    simp [ha]
  unfold sortedDiff
  rw [h]
  rfl

/-- C3: the changelog comparator has no scanner-capability suppression:
on the repository's own test input (old list with no `encoding`-subtype
entries, new list adding two `encoding` entries and one ordinary
extension), `compare_component_type` reports all three names as added,
not just the ordinary one. -/
theorem changelog_added_has_no_subtype_suppression :
    (compareComponentType "extension" clogOld clogNew).map TypeChanges.added
      = .ok ["avroencondingextension", "jsonencodingextension", "newextension"] := by
  decide

/-- C5 counterexample: loading a never-saved (distribution, version)
returns an empty component-type mapping — it does not contain the five
component types bound to empty lists (no `"receiver"` key at all). -/
theorem load_missing_components_mapping_is_empty :
    (loadVersionedInventory [] "core" ⟨0, 112, 0, false⟩).components = []
      ∧ ((loadVersionedInventory [] "core" ⟨0, 112, 0, false⟩).components.lookup
          "receiver") = none := by
  decide

/-- C5 amended: for a (distribution, version) with no version directory,
`load_versioned_inventory` returns, without raising,
`{"distribution": d, "version": str(v), "components": {}}` — the
components mapping is present but empty, and no `repository` key is
set. -/
theorem load_missing_returns_empty_inventory (store : Store) (dist : String)
    (v : Version) (h : store.lookup (dist, v.toStr) = none) :
    loadVersionedInventory store dist v = ⟨dist, v.toStr, none, []⟩ := by
  unfold loadVersionedInventory
  rw [h]

/-- C5 witness: the amended statement at the empty store. -/
theorem load_missing_returns_empty_inventory_witness :
    loadVersionedInventory [] "core" ⟨0, 112, 0, false⟩
      = ⟨"core", "v0.112.0", none, []⟩ :=
  load_missing_returns_empty_inventory [] "core" ⟨0, 112, 0, false⟩ rfl

/-- C6: with `v0.139.0` and `v0.140.0` persisted and target `v0.140.1`,
`get_best_available_version` does not return `v0.140.0` as its own test
(`test_version_mismatch_bugfix_with_real_metadata`) expects: the
fallback loop evaluates `version <= target_version` on a dataclass that
defines only `__lt__`/`__eq__`, so it raises `TypeError`. -/
theorem best_available_version_raises_typeerror :
    getBestAvailableVersion ["v0.139.0", "v0.140.0"] ⟨0, 140, 1, false⟩
      = .error "TypeError: '<=' not supported between instances of 'Version' and 'Version'" := by
  decide

/-- C7 counterexample: `"vv1.2.3"` has two leading `v` characters, which
the claim says must fail, but `lstrip("v")` removes them all and the
string parses. -/
theorem fromString_accepts_double_v :
    Version.fromString "vv1.2.3" = .ok ⟨1, 2, 3, false⟩ := by
  decide

/-- C4 counterexample: a record whose `metadata` key holds null makes
`detect_all_changes` raise (`None.get` inside the stability
comparison), so the detector is not total on such inventories. -/
theorem detect_raises_on_null_metadata :
    detectAllChanges nullMetaInv nullMetaInv = .error "AttributeError" := by
  decide

theorem ok_bind {α β : Type} (a : α) (f : α → Except String β) :
    (Except.ok a >>= f) = f a := rfl

theorem error_bind {α β : Type} (e : String) (f : α → Except String β) :
    (Except.error e >>= f : Except String β) = Except.error e := rfl

theorem namesOf_ok_of_all_some (cs : List Component)
    (h : ∀ c ∈ cs, c.name.isSome = true) : ∃ ns, namesOf cs = .ok ns := by
  induction cs with
  | nil => exact ⟨[], rfl⟩
  | cons c cs ih =>
    obtain ⟨n, hn⟩ := Option.isSome_iff_exists.1 (h c (List.mem_cons_self c cs))
    obtain ⟨ns, hns⟩ := ih (fun c hc => h c (List.mem_cons_of_mem _ hc))
    refine ⟨n :: ns, ?_⟩
    simp only [namesOf, hn, hns, ok_bind]

theorem mem_namesOf (cs : List Component) (ns : List String)
    (h : namesOf cs = .ok ns) (n : String) :
    n ∈ ns ↔ ∃ c ∈ cs, c.name = some n := by
  induction cs generalizing ns with
  | nil =>
    simp only [namesOf, Except.ok.injEq] at h
    subst h
    simp
  | cons c cs ih =>
    cases hc : c.name with
    | none => simp [namesOf, hc] at h
    | some m =>
      cases hrec : namesOf cs with
      | error e => simp [namesOf, hc, hrec, error_bind] at h
      | ok ns' =>
        simp only [namesOf, hc, hrec, ok_bind, Except.ok.injEq] at h
        subst h
        simp only [List.mem_cons, ih ns' hrec]
        constructor
        · rintro (rfl | ⟨c', hc', hn'⟩)
          · exact ⟨c, Or.inl rfl, hc⟩
          · exact ⟨c', Or.inr hc', hn'⟩
        · rintro ⟨c', rfl | hc', hn'⟩
          · left; rw [hc] at hn'; exact (Option.some.inj hn').symm
          · right; exact ⟨c', hc', hn'⟩

theorem lookupComp_mem (cs : List Component) (n : String)
    (h : ∃ c ∈ cs, c.name = some n) :
    lookupComp cs n ∈ cs ∧ (lookupComp cs n).name = some n := by
  obtain ⟨c, hc, hn⟩ := h
  have hf : c ∈ cs.filter (fun c => c.name == some n) :=
    List.mem_filter.2 ⟨hc, by simp [hn]⟩
  have hne : cs.filter (fun c => c.name == some n) ≠ [] :=
    List.ne_nil_of_mem hf
  cases hl : (cs.filter (fun c => c.name == some n)).getLast? with
  | none => exact absurd (List.getLast?_eq_none_iff.1 hl) hne
  | some c' =>
    have hm : c' ∈ cs.filter (fun c => c.name == some n) :=
      List.mem_of_mem_getLast? hl
    have : lookupComp cs n = c' := by simp [lookupComp, hl]
    rw [this]
    exact ⟨List.mem_of_mem_filter hm, by simpa using (List.mem_filter.1 hm).2⟩

theorem wfComponent_name (c : Component) (h : wfComponent c = true) :
    c.name.isSome = true := by
  simp only [wfComponent, Bool.and_eq_true] at h
  exact h.1

theorem pyMetaOf_ok_of_wf (c : Component) (h : wfComponent c = true) :
    ∃ m, pyMetaOf c = .ok m ∧ wfMetadata m = true := by
  simp only [wfComponent, Bool.and_eq_true] at h
  cases hm : c.metadata with
  | none => exact ⟨⟨none, none, none, []⟩, by simp [pyMetaOf, hm], by decide⟩
  | some om =>
    cases om with
    | none => rw [hm] at h; exact absurd h.2 (by simp)
    | some m =>
      refine ⟨m, by simp [pyMetaOf, hm], ?_⟩
      rw [hm] at h
      exact h.2

theorem pyStatusOf_ok_of_wf (m : Metadata) (h : wfMetadata m = true) :
    ∃ s, pyStatusOf m = .ok s := by
  simp only [wfMetadata, Bool.and_eq_true] at h
  cases hs : m.status with
  | none => exact ⟨⟨none, none, []⟩, by simp [pyStatusOf, hs]⟩
  | some os =>
    cases os with
    | none => rw [hs] at h; simp at h
    | some s => exact ⟨s, by simp [pyStatusOf, hs]⟩

theorem attrsFetch_ok_attributes (m : Metadata) (h : wfMetadata m = true) :
    ∃ a, attrsFetch m.attributes = .ok a := by
  simp only [wfMetadata, Bool.and_eq_true] at h
  cases ha : m.attributes with
  | none => exact ⟨[], rfl⟩
  | some oa =>
    cases oa with
    | none => rw [ha] at h; simp at h
    | some a => exact ⟨a, by simp [attrsFetch]⟩

theorem attrsFetch_ok_metrics (m : Metadata) (h : wfMetadata m = true) :
    ∃ a, attrsFetch m.metrics = .ok a := by
  simp only [wfMetadata, Bool.and_eq_true] at h
  cases ha : m.metrics with
  | none => exact ⟨[], rfl⟩
  | some oa =>
    cases oa with
    | none => rw [ha] at h; simp at h
    | some a => exact ⟨a, by simp [attrsFetch]⟩

theorem stabilityChanges_ok (t n : String) (om nm : Metadata)
    (h1 : wfMetadata om = true) (h2 : wfMetadata nm = true) :
    ∃ g, stabilityChanges t n om nm = .ok g := by
  obtain ⟨os, hos⟩ := pyStatusOf_ok_of_wf om h1
  obtain ⟨ns, hns⟩ := pyStatusOf_ok_of_wf nm h2
  by_cases hif : stabilityFetch os = stabilityFetch ns
  · exact ⟨[], by simp [stabilityChanges, hos, hns, ok_bind, hif]⟩
  · exact ⟨[{ change_type := .stability_changed
              component_type := t
              component_name := n
              description := "Stability changed for " ++ t ++ "/" ++ n
              old_value := .stab (stabilityFetch os)
              new_value := .stab (stabilityFetch ns)
              details := [("old_stability", .stab (stabilityFetch os)),
                ("new_stability", .stab (stabilityFetch ns))] }],
      by simp [stabilityChanges, hos, hns, ok_bind, hif]⟩

theorem stabilityChanges_self (t n : String) (m : Metadata)
    (h : wfMetadata m = true) : stabilityChanges t n m m = .ok [] := by
  obtain ⟨s, hs⟩ := pyStatusOf_ok_of_wf m h
  simp [stabilityChanges, hs, ok_bind]

theorem fieldDiffs_self (ct1 ct2 ct3 : ChangeType) (w k t n : String)
    (a : List (String × Val)) : fieldDiffs ct1 ct2 ct3 w k t n a a = [] := by
  unfold fieldDiffs
  rw [sortedDiff_self]
  simp only [List.map_nil, List.nil_append]
  rw [List.filterMap_eq_nil_iff]
  intro x hx
  simp

theorem detectMetaFor_self (t n : String) (c : Component)
    (h : wfComponent c = true) : detectMetadataChangesFor t n c c = .ok [] := by
  unfold detectMetadataChangesFor
  cases hm : hasMetaFlag c with
  | false => simp [hm]
  | true =>
    obtain ⟨m, hmo, hwm⟩ := pyMetaOf_ok_of_wf c h
    obtain ⟨a, ha⟩ := attrsFetch_ok_attributes m hwm
    obtain ⟨me, hme⟩ := attrsFetch_ok_metrics m hwm
    simp [hm, hmo, ok_bind, stabilityChanges_self t n m hwm, ha, hme,
      fieldDiffs_self]

theorem subBlocks_all_nil (t : String) (oldCs newCs : List Component)
    (names : List String)
    (h : ∀ n ∈ names,
      detectMetadataChangesFor t n (lookupComp oldCs n) (lookupComp newCs n) = .ok []) :
    subBlocks t oldCs newCs names = .ok (names.map fun _ => ([] : List Change)) := by
  induction names with
  | nil => rfl
  | cons n ns ih =>
    simp only [subBlocks, h n (List.mem_cons_self n ns), ok_bind,
      ih (fun n hn => h n (List.mem_cons_of_mem _ hn)), List.map_cons]

theorem detectComponentChanges_self (t : String) (cs : List Component)
    (h : ∀ c ∈ cs, wfComponent c = true) :
    detectComponentChanges t cs cs = .ok [] := by
  obtain ⟨ns, hns⟩ := namesOf_ok_of_all_some cs
    (fun c hc => wfComponent_name c (h c hc))
  have hsub : subBlocks t cs cs (sortedInter ns ns)
      = .ok ((sortedInter ns ns).map fun _ => ([] : List Change)) := by
    apply subBlocks_all_nil
    intro n hn
    have hex : ∃ c ∈ cs, c.name = some n :=
      (mem_namesOf cs ns hns n).1 ((mem_sortedInter n ns ns).1 hn).1
    obtain ⟨hmem, _⟩ := lookupComp_mem cs n hex
    exact detectMetaFor_self t n _ (h _ hmem)
  simp only [detectComponentChanges, hns, ok_bind, hsub, sortedDiff_self,
    List.map_nil, List.nil_append]
  simp [List.flatten_eq_nil_iff]

theorem detectTypes_self (X : Inventory) (ts : List String)
    (h : ∀ t ∈ ts, ∀ c ∈ compsOf X t, wfComponent c = true) :
    detectTypes X X ts = .ok [] := by
  induction ts with
  | nil => rfl
  | cons t ts ih =>
    simp only [detectTypes,
      detectComponentChanges_self t _ (h t (List.mem_cons_self t ts)), ok_bind,
      ih (fun t ht => h t (List.mem_cons_of_mem _ ht)), List.nil_append]

/-- C8: on a well-formed inventory (each record carries a `name` and the
metadata dicts present are mappings, not null), comparing an inventory
against itself yields the empty change list. -/
theorem detect_self_is_empty (X : Inventory) (h : wfInventory X = true) :
    detectAllChanges X X = .ok [] := by
  unfold detectAllChanges
  apply detectTypes_self
  intro t ht c hc
  have h1 := (List.all_eq_true.1 h) t ht
  exact (List.all_eq_true.1 h1) c hc

/-- C8 witness: the no-op theorem applied at `selfInv`. -/
theorem detect_self_is_empty_witness :
    wfInventory selfInv = true ∧ detectAllChanges selfInv selfInv = .ok [] :=
  ⟨by decide, detect_self_is_empty selfInv (by decide)⟩

theorem detectMetaFor_ok (t n : String) (oc nc : Component)
    (h1 : wfComponent oc = true) (h2 : wfComponent nc = true) :
    ∃ g, detectMetadataChangesFor t n oc nc = .ok g := by
  unfold detectMetadataChangesFor
  cases ho : hasMetaFlag oc <;> cases hn2 : hasMetaFlag nc
  · exact ⟨[], by simp [ho, hn2]⟩
  · exact ⟨[{ change_type := .metadata_added
              component_type := t
              component_name := n
              description := "Metadata added to " ++ t ++ "/" ++ n
              old_value := .none
              new_value := metaAnyVal nc
              details := [] }], by simp [ho, hn2]⟩
  · exact ⟨[{ change_type := .metadata_removed
              component_type := t
              component_name := n
              description := "Metadata removed from " ++ t ++ "/" ++ n
              old_value := metaAnyVal oc
              new_value := .none
              details := [] }], by simp [ho, hn2]⟩
  · obtain ⟨om, hom, hwm1⟩ := pyMetaOf_ok_of_wf oc h1
    obtain ⟨nm, hnm, hwm2⟩ := pyMetaOf_ok_of_wf nc h2
    obtain ⟨g1, hg1⟩ := stabilityChanges_ok t n om nm hwm1 hwm2
    obtain ⟨a1, ha1⟩ := attrsFetch_ok_attributes om hwm1
    obtain ⟨a2, ha2⟩ := attrsFetch_ok_attributes nm hwm2
    obtain ⟨m1, hm1⟩ := attrsFetch_ok_metrics om hwm1
    obtain ⟨m2, hm2⟩ := attrsFetch_ok_metrics nm hwm2
    refine ⟨g1
      ++ fieldDiffs .attribute_added .attribute_removed .attribute_modified
          "Attribute" "attribute_name" t n a1 a2
      ++ fieldDiffs .metric_added .metric_removed .metric_modified
          "Metric" "metric_name" t n m1 m2, ?_⟩
    simp [ho, hn2, hom, hnm, ok_bind, hg1, ha1, ha2, hm1, hm2]

theorem subBlocks_ok (t : String) (oldCs newCs : List Component)
    (names : List String)
    (h : ∀ n ∈ names, ∃ g,
      detectMetadataChangesFor t n (lookupComp oldCs n) (lookupComp newCs n) = .ok g) :
    ∃ gs, subBlocks t oldCs newCs names = .ok gs := by
  induction names with
  | nil => exact ⟨[], rfl⟩
  | cons n ns ih =>
    obtain ⟨g, hg⟩ := h n (List.mem_cons_self n ns)
    obtain ⟨gs, hgs⟩ := ih (fun n hn => h n (List.mem_cons_of_mem _ hn))
    exact ⟨g :: gs, by simp only [subBlocks, hg, ok_bind, hgs]⟩

theorem detectComponentChanges_ok (t : String) (oldCs newCs : List Component)
    (h1 : ∀ c ∈ oldCs, wfComponent c = true)
    (h2 : ∀ c ∈ newCs, wfComponent c = true) :
    ∃ b, detectComponentChanges t oldCs newCs = .ok b := by
  obtain ⟨ons, hons⟩ := namesOf_ok_of_all_some oldCs
    (fun c hc => wfComponent_name c (h1 c hc))
  obtain ⟨nns, hnns⟩ := namesOf_ok_of_all_some newCs
    (fun c hc => wfComponent_name c (h2 c hc))
  have hpre : ∀ n ∈ sortedInter ons nns, ∃ g,
      detectMetadataChangesFor t n (lookupComp oldCs n) (lookupComp newCs n) = .ok g := by
    intro n hn
    have hi := (mem_sortedInter n ons nns).1 hn
    obtain ⟨ho, _⟩ := lookupComp_mem oldCs n ((mem_namesOf oldCs ons hons n).1 hi.1)
    obtain ⟨hn', _⟩ := lookupComp_mem newCs n ((mem_namesOf newCs nns hnns n).1 hi.2)
    exact detectMetaFor_ok t n _ _ (h1 _ ho) (h2 _ hn')
  obtain ⟨gs, hgs⟩ := subBlocks_ok t oldCs newCs (sortedInter ons nns) hpre
  exact ⟨(sortedDiff nns ons).map (mkAdded t newCs)
      ++ (sortedDiff ons nns).map (mkRemoved t oldCs) ++ gs.flatten,
    by simp only [detectComponentChanges, hons, hnns, ok_bind, hgs]⟩

theorem detectTypes_ok (a b : Inventory) (ts : List String)
    (h1 : ∀ t ∈ ts, ∀ c ∈ compsOf a t, wfComponent c = true)
    (h2 : ∀ t ∈ ts, ∀ c ∈ compsOf b t, wfComponent c = true) :
    ∃ l, detectTypes a b ts = .ok l := by
  induction ts with
  | nil => exact ⟨[], rfl⟩
  | cons t ts ih =>
    obtain ⟨bl, hbl⟩ := detectComponentChanges_ok t (compsOf a t) (compsOf b t)
      (h1 t (List.mem_cons_self t ts)) (h2 t (List.mem_cons_self t ts))
    obtain ⟨l, hl⟩ := ih (fun t ht => h1 t (List.mem_cons_of_mem _ ht))
      (fun t ht => h2 t (List.mem_cons_of_mem _ ht))
    exact ⟨bl ++ l, by simp only [detectTypes, hbl, ok_bind, hl]⟩

/-- C4 amended: the detector is total on well-formed inventories — every
record carries a `name` key and the `metadata`/`status`/`attributes`/
`metrics` values, when present, are mappings (absent nested keys default
to empty); a `metadata` key holding null, by contrast, makes it raise
(see the counterexample). -/
theorem detect_total_on_wf (a b : Inventory)
    (ha : wfInventory a = true) (hb : wfInventory b = true) :
    exceptIsOk (detectAllChanges a b) = true := by
  obtain ⟨l, hl⟩ := detectTypes_ok a b detOrder
    (fun t ht c hc => (List.all_eq_true.1 ((List.all_eq_true.1 ha) t ht)) c hc)
    (fun t ht c hc => (List.all_eq_true.1 ((List.all_eq_true.1 hb) t ht)) c hc)
  unfold detectAllChanges
  rw [hl]
  rfl

/-- C4 witness: totality applied at (`selfInv`, `otherInv`). -/
theorem detect_total_on_wf_witness :
    exceptIsOk (detectAllChanges selfInv otherInv) = true :=
  detect_total_on_wf selfInv otherInv (by decide) (by decide)

theorem subBlocks_forall₂ (t : String) (oldCs newCs : List Component)
    (names : List String) (gs : List (List Change))
    (h : subBlocks t oldCs newCs names = .ok gs) :
    List.Forall₂ (fun n g =>
      detectMetadataChangesFor t n (lookupComp oldCs n) (lookupComp newCs n) = .ok g)
      names gs := by
  induction names generalizing gs with
  | nil =>
    simp only [subBlocks, Except.ok.injEq] at h
    subst h
    exact List.Forall₂.nil
  | cons n ns ih =>
    cases hg : detectMetadataChangesFor t n (lookupComp oldCs n) (lookupComp newCs n) with
    | error e => simp [subBlocks, hg, error_bind] at h
    | ok g =>
      cases hrec : subBlocks t oldCs newCs ns with
      | error e => simp [subBlocks, hg, hrec, ok_bind, error_bind] at h
      | ok gs' =>
        simp only [subBlocks, hg, hrec, ok_bind, Except.ok.injEq] at h
        subst h
        exact List.Forall₂.cons hg (ih gs' hrec)

theorem fieldDiffs_mem (ct1 ct2 ct3 : ChangeType) (w k t n : String)
    (oldA newA : List (String × Val)) (c : Change)
    (h : c ∈ fieldDiffs ct1 ct2 ct3 w k t n oldA newA) :
    c.component_type = t ∧ c.component_name = n ∧
      (c.change_type = ct1 ∨ c.change_type = ct2 ∨ c.change_type = ct3) := by
  unfold fieldDiffs at h
  rcases List.mem_append.1 h with h' | h'
  · rcases List.mem_append.1 h' with h'' | h''
    · obtain ⟨a, _, rfl⟩ := List.mem_map.1 h''
      exact ⟨rfl, rfl, Or.inl rfl⟩
    · obtain ⟨a, _, rfl⟩ := List.mem_map.1 h''
      exact ⟨rfl, rfl, Or.inr (Or.inl rfl)⟩
  · obtain ⟨a, _, ha⟩ := List.mem_filterMap.1 h'
    simp only at ha
    split at ha
    · exact absurd ha (by simp)
    · cases Option.some.inj ha
      exact ⟨rfl, rfl, Or.inr (Or.inr rfl)⟩

theorem stabilityChanges_mem (t n : String) (om nm : Metadata)
    (g : List Change) (h : stabilityChanges t n om nm = .ok g) :
    ∀ c ∈ g, c.component_type = t ∧ c.component_name = n ∧
      c.change_type = .stability_changed := by
  unfold stabilityChanges at h
  cases h1 : pyStatusOf om with
  | error e => simp [h1, error_bind] at h
  | ok os =>
    cases h2 : pyStatusOf nm with
    | error e => simp [h1, h2, ok_bind, error_bind] at h
    | ok ns =>
      simp only [h1, h2, ok_bind, Except.ok.injEq] at h
      subst h
      intro c hc
      split at hc
      · simp at hc
      · rcases List.mem_singleton.1 hc with rfl
        exact ⟨rfl, rfl, rfl⟩

theorem detectMetaFor_fields (t n : String) (oc nc : Component)
    (g : List Change) (h : detectMetadataChangesFor t n oc nc = .ok g) :
    ∀ c ∈ g, c.component_type = t ∧ c.component_name = n ∧
      metaOrFieldType c.change_type := by
  unfold detectMetadataChangesFor at h
  dsimp only at h
  split at h
  · cases Except.ok.inj h
    intro c hc
    rcases List.mem_singleton.1 hc with rfl
    exact ⟨rfl, rfl, by simp [metaOrFieldType]⟩
  · split at h
    · cases Except.ok.inj h
      intro c hc
      rcases List.mem_singleton.1 hc with rfl
      exact ⟨rfl, rfl, by simp [metaOrFieldType]⟩
    · split at h
      · cases h1 : pyMetaOf oc with
        | error e => rw [h1, error_bind] at h; exact absurd h (by simp)
        | ok om =>
          cases h2 : pyMetaOf nc with
          | error e => rw [h1, ok_bind, h2, error_bind] at h; exact absurd h (by simp)
          | ok nm =>
            rw [h1, ok_bind, h2, ok_bind] at h
            cases h3 : stabilityChanges t n om nm with
            | error e => rw [h3, error_bind] at h; exact absurd h (by simp)
            | ok g1 =>
              rw [h3, ok_bind] at h
              cases h4 : attrsFetch om.attributes with
              | error e => rw [h4, error_bind] at h; exact absurd h (by simp)
              | ok a1 =>
                cases h5 : attrsFetch nm.attributes with
                | error e => rw [h4, ok_bind, h5, error_bind] at h; exact absurd h (by simp)
                | ok a2 =>
                  cases h6 : attrsFetch om.metrics with
                  | error e =>
                    rw [h4, ok_bind, h5, ok_bind, h6, error_bind] at h
                    exact absurd h (by simp)
                  | ok m1 =>
                    cases h7 : attrsFetch nm.metrics with
                    | error e =>
                      rw [h4, ok_bind, h5, ok_bind, h6, ok_bind, h7, error_bind] at h
                      exact absurd h (by simp)
                    | ok m2 =>
                      rw [h4, ok_bind, h5, ok_bind, h6, ok_bind, h7, ok_bind] at h
                      cases Except.ok.inj h
                      intro c hc
                      rcases List.mem_append.1 hc with hc' | hc'
                      · rcases List.mem_append.1 hc' with hc'' | hc''
                        · obtain ⟨h1', h2', h3'⟩ :=
                            stabilityChanges_mem t n om nm g1 h3 c hc''
                          exact ⟨h1', h2', by simp [metaOrFieldType, h3']⟩
                        · obtain ⟨h1', h2', h3'⟩ := fieldDiffs_mem _ _ _ _ _ _ _ _ _ _ hc''
                          refine ⟨h1', h2', ?_⟩
                          rcases h3' with h3' | h3' | h3' <;> simp [metaOrFieldType, h3']
                      · obtain ⟨h1', h2', h3'⟩ := fieldDiffs_mem _ _ _ _ _ _ _ _ _ _ hc'
                        refine ⟨h1', h2', ?_⟩
                        rcases h3' with h3' | h3' | h3' <;> simp [metaOrFieldType, h3']
      · cases Except.ok.inj h
        intro c hc
        simp at hc

theorem detectComponentChanges_blockOK (t : String) (oldCs newCs : List Component)
    (block : List Change)
    (h : detectComponentChanges t oldCs newCs = .ok block) :
    TypeBlockOK t block := by
  unfold detectComponentChanges at h
  cases h1 : namesOf oldCs with
  | error e => rw [h1, error_bind] at h; exact absurd h (by simp)
  | ok ons =>
    cases h2 : namesOf newCs with
    | error e => rw [h1, ok_bind, h2, error_bind] at h; exact absurd h (by simp)
    | ok nns =>
      rw [h1, ok_bind, h2, ok_bind] at h
      cases h3 : subBlocks t oldCs newCs (sortedInter ons nns) with
      | error e => rw [h3, error_bind] at h; exact absurd h (by simp)
      | ok gs =>
        rw [h3, ok_bind] at h
        cases Except.ok.inj h
        refine ⟨(sortedDiff nns ons).map (mkAdded t newCs),
          (sortedDiff ons nns).map (mkRemoved t oldCs),
          sortedInter ons nns, gs, rfl, ?_, ?_, ?_, ?_, ?_, ?_⟩
        · intro c hc
          obtain ⟨a, _, rfl⟩ := List.mem_map.1 hc
          exact ⟨rfl, rfl⟩
        · have hmn : ∀ l : List String,
              ((l.map (mkAdded t newCs)).map Change.component_name) = l := by
            intro l
            induction l with
            | nil => rfl
            | cons a l ih => simp only [List.map_cons, ih, mkAdded]
          rw [strSorted, hmn]
          exact pairwise_sortedDiff nns ons
        · intro c hc
          obtain ⟨a, _, rfl⟩ := List.mem_map.1 hc
          exact ⟨rfl, rfl⟩
        · have hmn : ∀ l : List String,
              ((l.map (mkRemoved t oldCs)).map Change.component_name) = l := by
            intro l
            induction l with
            | nil => rfl
            | cons a l ih => simp only [List.map_cons, ih, mkRemoved]
          rw [strSorted, hmn]
          exact pairwise_sortedDiff ons nns
        · exact pairwise_sortedInter ons nns
        · exact List.Forall₂.imp
            (fun n g hng => detectMetaFor_fields t n _ _ g hng)
            (subBlocks_forall₂ t oldCs newCs _ gs h3)

theorem detectTypes_cons (old new : Inventory) (t : String) (ts : List String)
    (l : List Change) (h : detectTypes old new (t :: ts) = .ok l) :
    ∃ b r, detectComponentChanges t (compsOf old t) (compsOf new t) = .ok b ∧
      detectTypes old new ts = .ok r ∧ l = b ++ r := by
  cases h1 : detectComponentChanges t (compsOf old t) (compsOf new t) with
  | error e => simp [detectTypes, h1, error_bind] at h
  | ok b =>
    cases h2 : detectTypes old new ts with
    | error e => simp [detectTypes, h1, h2, ok_bind, error_bind] at h
    | ok r =>
      simp only [detectTypes, h1, h2, ok_bind, Except.ok.injEq] at h
      exact ⟨b, r, rfl, rfl, h.symm⟩

/-- C9 amended: the emitted changes are grouped by component type in the
fixed order connector, exporter, extension, processor, receiver; within
each type all additions come first in name order, then all removals in
name order, then one contiguous per-component group for each surviving
name in name order, each group holding only that component's
metadata-add/remove or field-level changes (so metadata add/remove
precede field-level changes of the same component but not of
alphabetically-earlier ones). -/
theorem detect_order (old new : Inventory) (l : List Change)
    (h : detectAllChanges old new = .ok l) :
    ∃ b1 b2 b3 b4 b5, l = b1 ++ b2 ++ b3 ++ b4 ++ b5 ∧
      TypeBlockOK "connector" b1 ∧ TypeBlockOK "exporter" b2 ∧
      TypeBlockOK "extension" b3 ∧ TypeBlockOK "processor" b4 ∧
      TypeBlockOK "receiver" b5 := by
  have h' : detectTypes old new
      ["connector", "exporter", "extension", "processor", "receiver"] = .ok l := h
  obtain ⟨b1, r1, hb1, h1, rfl⟩ := detectTypes_cons _ _ _ _ _ h'
  obtain ⟨b2, r2, hb2, h2, rfl⟩ := detectTypes_cons _ _ _ _ _ h1
  obtain ⟨b3, r3, hb3, h3, rfl⟩ := detectTypes_cons _ _ _ _ _ h2
  obtain ⟨b4, r4, hb4, h4, rfl⟩ := detectTypes_cons _ _ _ _ _ h3
  obtain ⟨b5, r5, hb5, h5, rfl⟩ := detectTypes_cons _ _ _ _ _ h4
  have hr5 : r5 = [] := by
    simp only [detectTypes, Except.ok.injEq] at h5
    exact h5.symm
  subst hr5
  exact ⟨b1, b2, b3, b4, b5, by simp,
    detectComponentChanges_blockOK _ _ _ _ hb1,
    detectComponentChanges_blockOK _ _ _ _ hb2,
    detectComponentChanges_blockOK _ _ _ _ hb3,
    detectComponentChanges_blockOK _ _ _ _ hb4,
    detectComponentChanges_blockOK _ _ _ _ hb5⟩

/-- C9 counterexample: within one component type a `METADATA_ADDED`
change (for `"b"`) is emitted after a field-level `STABILITY_CHANGED`
change (for `"a"`), so metadata additions do not all precede field-level
changes as claimed. -/
theorem metadata_added_after_field_level :
    (detectAllChanges c9Old c9New).map (fun l => l.map Change.change_type)
      = .ok [.stability_changed, .metadata_added] := by
  decide

/-- C9 witness: the amended ordering theorem applied at the concrete
run. -/
theorem detect_order_witness :
    ∃ b1 b2 b3 b4 b5, c9Out = b1 ++ b2 ++ b3 ++ b4 ++ b5 ∧
      TypeBlockOK "connector" b1 ∧ TypeBlockOK "exporter" b2 ∧
      TypeBlockOK "extension" b3 ∧ TypeBlockOK "processor" b4 ∧
      TypeBlockOK "receiver" b5 :=
  detect_order c9Old c9New c9Out rfl

theorem dictInsert_forall_snd {κ α : Type} [BEq κ] (P : α → Prop)
    (m : List (κ × α)) (k : κ) (v : α)
    (hm : ∀ q ∈ m, P q.2) (hv : P v) :
    ∀ p ∈ dictInsert m k v, P p.2 := by
  intro p hp
  unfold dictInsert at hp
  split at hp
  · obtain ⟨q, hq, hpq⟩ := List.mem_map.1 hp
    split at hpq
    · subst hpq; exact hv
    · subst hpq; exact hm q hq
  · rcases List.mem_append.1 hp with h | h
    · exact hm p h
    · rcases List.mem_singleton.1 h with rfl
      exact hv

theorem lookup_mem {κ α : Type} [BEq κ] (m : List (κ × α)) (k : κ) (v : α)
    (h : m.lookup k = some v) : ∃ k', (k', v) ∈ m := by
  induction m with
  | nil => simp [List.lookup] at h
  | cons p rest ih =>
    rw [List.lookup] at h
    split at h
    · have hv : v = p.2 := (Option.some.inj h).symm
      subst hv
      refine ⟨p.1, ?_⟩
      rw [Prod.mk.eta]
      exact List.Mem.head rest
    · obtain ⟨k', hk'⟩ := ih h
      exact ⟨k', List.mem_cons_of_mem _ hk'⟩

theorem setDistributions_name (c : Component) (ds : List String) :
    (setDistributions c ds).name = c.name := rfl

theorem setDistributions_source (c : Component) (ds : List String) :
    (setDistributions c ds).source_repo = c.source_repo := rfl

theorem mergeBoth_name_source (existing comp merged : Component)
    (h : mergeBoth existing comp = .ok merged) :
    merged.name = existing.name ∧ merged.source_repo = existing.source_repo := by
  unfold mergeBoth at h
  cases h1 : distsOf existing with
  | error e => rw [h1, error_bind] at h; exact absurd h (by simp)
  | ok exd =>
    cases h2 : distsOf comp with
    | error e => rw [h1, ok_bind, h2, error_bind] at h; exact absurd h (by simp)
    | ok cod =>
      rw [h1, ok_bind, h2, ok_bind] at h
      cases Except.ok.inj h
      constructor
      · rw [setDistributions_name]
        split <;> rfl
      · rw [setDistributions_source]
        split <;> rfl

theorem beq_false_ne_optStr (a : Option String) (s : String)
    (h : (a == some s) = false) : a ≠ some s := by
  intro hh
  subst hh
  simp at h

theorem contribFold_no_x (t : String) (comps : List Component) :
    ∀ m m', (∀ p ∈ m, p.2.name ≠ some ("x" ++ t)) →
      contribFold t m comps = .ok m' →
      ∀ p ∈ m', p.2.name ≠ some ("x" ++ t) := by
  induction comps with
  | nil =>
    intro m m' hm h
    simp only [contribFold, Except.ok.injEq] at h
    subst h
    exact hm
  | cons comp rest ih =>
    intro m m' hm h
    rw [contribFold] at h
    split at h
    · exact ih m m' hm h
    · rename_i hguard
      rw [Bool.not_eq_true] at hguard
      split at h
      · rename_i existing hlk
        cases hmb : mergeBoth existing comp with
        | error e => rw [hmb, error_bind] at h; exact absurd h (by simp)
        | ok merged =>
          rw [hmb, ok_bind] at h
          refine ih _ m' ?_ h
          refine dictInsert_forall_snd
            (fun c => c.name ≠ some ("x" ++ t)) m comp.name merged hm ?_
          obtain ⟨k', hk'⟩ := lookup_mem m comp.name existing hlk
          rw [(mergeBoth_name_source existing comp merged hmb).1]
          exact hm (k', existing) hk'
      · refine ih _ m' ?_ h
        refine dictInsert_forall_snd
          (fun c => c.name ≠ some ("x" ++ t)) m comp.name _ hm ?_
        exact beq_false_ne_optStr comp.name ("x" ++ t) hguard

theorem coreFold_no_x (t : String) (coreComps : List Component) :
    ∀ m, (∀ p ∈ m, p.2.name ≠ some ("x" ++ t)) →
      ∀ p ∈ coreComps.foldl (fun m comp =>
          if comp.name == some ("x" ++ t) then m
          else dictInsert m comp.name { comp with source_repo := some "core" }) m,
        p.2.name ≠ some ("x" ++ t) := by
  induction coreComps with
  | nil => intro m hm; exact hm
  | cons comp rest ih =>
    intro m hm
    rw [List.foldl_cons]
    cases hguard : (comp.name == some ("x" ++ t)) with
    | true => rw [if_pos rfl]; exact ih m hm
    | false =>
      rw [if_neg (by simp)]
      apply ih
      refine dictInsert_forall_snd
        (fun c => c.name ≠ some ("x" ++ t)) m comp.name _ hm ?_
      exact beq_false_ne_optStr comp.name ("x" ++ t) hguard

theorem mergeTypeUD_no_x (t : String) (coreComps contribComps : List Component)
    (out : List Component) (h : mergeTypeUD t coreComps contribComps = .ok out) :
    ∀ c ∈ out, c.name ≠ some ("x" ++ t) := by
  unfold mergeTypeUD at h
  dsimp only at h
  cases hcf : contribFold t (coreComps.foldl (fun m comp =>
      if comp.name == some ("x" ++ t) then m
      else dictInsert m comp.name { comp with source_repo := some "core" }) [])
      contribComps with
  | error e => rw [hcf, error_bind] at h; exact absurd h (by simp)
  | ok m2 =>
    rw [hcf, ok_bind] at h
    cases Except.ok.inj h
    intro c hc
    have hc2 : c ∈ m2.map Prod.snd := (mem_sortLe _ c _).1 hc
    obtain ⟨p, hp, rfl⟩ := List.mem_map.1 hc2
    refine contribFold_no_x t contribComps _ m2 ?_ hcf p hp
    exact coreFold_no_x t coreComps [] (by simp)

theorem mergeTypesUD_mem (core contrib : Inventory) (ts : List String)
    (r : List (String × List Component)) (t : String) (l : List Component)
    (h : mergeTypesUD core contrib ts = .ok r) (hm : (t, l) ∈ r) :
    mergeTypeUD t (compsOf core t) (compsOf contrib t) = .ok l := by
  induction ts generalizing r with
  | nil =>
    simp only [mergeTypesUD, Except.ok.injEq] at h
    subst h
    simp at hm
  | cons t' ts ih =>
    cases h1 : mergeTypeUD t' (compsOf core t') (compsOf contrib t') with
    | error e => simp [mergeTypesUD, h1, error_bind] at h
    | ok l' =>
      cases h2 : mergeTypesUD core contrib ts with
      | error e => simp [mergeTypesUD, h1, h2, ok_bind, error_bind] at h
      | ok r' =>
        simp only [mergeTypesUD, h1, h2, ok_bind, Except.ok.injEq] at h
        subst h
        rcases List.mem_cons.1 hm with heq | hmem
        · cases heq
          exact h1
        · exact ih r' h2 hmem

/-- C10 amended: the experimental `x<component-type>` exclusion holds in
the docs-update merge (`update_docs.merge_inventories`): no record named
`x<type>` from either source ever appears in its output.  The
scanner-level merge (`MultiRepoScanner._merge_inventories`) performs no
such exclusion (see the counterexample). -/
theorem mergeUD_excludes_x (core contrib m : Inventory) (t : String)
    (l : List Component) (c : Component)
    (hm : mergeInventoriesUD core contrib = .ok m)
    (hl : (t, l) ∈ m.components) (hc : c ∈ l) :
    c.name ≠ some ("x" ++ t) := by
  unfold mergeInventoriesUD at hm
  dsimp only at hm
  cases h1 : mergeTypesUD core contrib (sortStr
      ((core.components.map Prod.fst ++ contrib.components.map Prod.fst).dedup)) with
  | error e => rw [h1, error_bind] at hm; exact absurd hm (by simp)
  | ok comps =>
    rw [h1, ok_bind] at hm
    cases Except.ok.inj hm
    exact mergeTypeUD_no_x t _ _ l (mergeTypesUD_mem core contrib _ comps t l h1 hl) c hc

/-- C10 counterexample: `MultiRepoScanner._merge_inventories` does not
exclude `x<component-type>` markers — `xreceiver` appears in its merged
output. -/
theorem mergeMR_keeps_xreceiver :
    (mergeInventoriesMR xrecInvs).map
      (fun m => (m.lookup "receiver").map (fun l => l.map Component.name))
      = .ok (some [some "xreceiver"]) := by
  decide

/-- C10 witness: the exclusion theorem applied at the witness run. -/
theorem mergeUD_excludes_x_witness :
    c10rec.name ≠ some ("x" ++ "receiver") :=
  mergeUD_excludes_x c10core c10contrib c10m "receiver" c10l c10rec rfl
    (by decide) (by decide)

theorem ScanInv_congr (p q : String → String → Bool)
    (m : List (String × RepoEntry)) (hpq : ∀ r n, p r n = q r n)
    (h : ScanInv p m) : ScanInv q m := by
  obtain ⟨h1, h2, h3⟩ := h
  refine ⟨h1, ?_, ?_⟩
  · intro pp hp r
    rw [← hpq]
    exact h2 pp hp r
  · intro n r hne hq
    exact h3 n r hne (by rw [hpq]; exact hq)

theorem mem_dictInsert {κ α : Type} [BEq κ] (m : List (κ × α)) (k : κ) (v : α)
    (p : κ × α) (hp : p ∈ dictInsert m k v) :
    p = (k, v) ∨ (p ∈ m ∧ (p.1 == k) = false) := by
  unfold dictInsert at hp
  split at hp
  · obtain ⟨q, hq, hpq⟩ := List.mem_map.1 hp
    split at hpq
    · exact Or.inl hpq.symm
    · rename_i hqk
      rw [← hpq]
      refine Or.inr ⟨hq, ?_⟩
      cases hb : (q.1 == k) with
      | false => rfl
      | true => exact absurd hb hqk
  · rename_i hany
    rcases List.mem_append.1 hp with h | h
    · refine Or.inr ⟨h, ?_⟩
      have hany2 : m.any (fun p => p.1 == k) = false := by
        cases hb : m.any (fun p => p.1 == k) with
        | false => rfl
        | true => exact absurd hb hany
      have hall := List.any_eq_false.1 hany2 p h
      cases hb : (p.1 == k) with
      | false => rfl
      | true => exact absurd hb hall
    · rcases List.mem_singleton.1 h with rfl
      exact Or.inl rfl

theorem lookup_map_replace_ne {κ α : Type} [BEq κ] [LawfulBEq κ]
    (m : List (κ × α)) (k : κ) (v : α) (n : κ) (hnk : (n == k) = false) :
    ((m.map (fun p => if p.1 == k then (k, v) else p)).lookup n) = m.lookup n := by
  induction m with
  | nil => rfl
  | cons p rest ih =>
    obtain ⟨pk, pv⟩ := p
    simp only [List.map_cons]
    cases hpk : (pk == k) with
    | true =>
      rw [if_pos rfl]
      have hp1 : pk = k := beq_iff_eq.1 hpk
      simp only [List.lookup, hp1, hnk]
      exact ih
    | false =>
      rw [if_neg (by simp [hpk])]
      simp only [List.lookup]
      cases hpn : (n == pk) with
      | true => simp only [hpn]
      | false => simp only [hpn]; exact ih

theorem lookup_map_replace_eq {κ α : Type} [BEq κ] [LawfulBEq κ]
    (m : List (κ × α)) (k : κ) (v : α)
    (hany : m.any (fun p => p.1 == k) = true) :
    ((m.map (fun p => if p.1 == k then (k, v) else p)).lookup k) = some v := by
  induction m with
  | nil => simp at hany
  | cons p rest ih =>
    obtain ⟨pk, pv⟩ := p
    simp only [List.map_cons]
    cases hpk : (pk == k) with
    | true =>
      rw [if_pos rfl]
      simp [List.lookup]
    | false =>
      rw [if_neg (by simp [hpk])]
      have hrest : rest.any (fun p => p.1 == k) = true := by
        simp only [List.any_cons, hpk, Bool.false_or] at hany
        exact hany
      have hkp : (k == pk) = false := by
        rw [beq_eq_false_iff_ne] at hpk ⊢
        exact fun hh => hpk hh.symm
      simp only [List.lookup, hkp]
      exact ih hrest

theorem lookup_eq_none_of_any_false {κ α : Type} [BEq κ] [LawfulBEq κ]
    (m : List (κ × α)) (k : κ)
    (hany : m.any (fun p => p.1 == k) = false) : m.lookup k = none := by
  induction m with
  | nil => rfl
  | cons p rest ih =>
    obtain ⟨pk, pv⟩ := p
    simp only [List.any_cons, Bool.or_eq_false_iff] at hany
    have hkp : (k == pk) = false := by
      have := hany.1
      rw [beq_eq_false_iff_ne] at this ⊢
      exact fun hh => this hh.symm
    simp only [List.lookup, hkp]
    exact ih hany.2

theorem lookup_append {κ α : Type} [BEq κ] (m l : List (κ × α)) (n : κ) :
    (m ++ l).lookup n = match m.lookup n with
      | some v => some v
      | none => l.lookup n := by
  induction m with
  | nil => rfl
  | cons p rest ih =>
    obtain ⟨pk, pv⟩ := p
    simp only [List.cons_append, List.lookup]
    cases hpn : (n == pk) with
    | true => simp only [hpn]
    | false => simp only [hpn]; exact ih

theorem dictInsert_lookup {κ α : Type} [BEq κ] [LawfulBEq κ]
    (m : List (κ × α)) (k : κ) (v : α) (n : κ) :
    (dictInsert m k v).lookup n
      = if (n == k) = true then some v else m.lookup n := by
  unfold dictInsert
  cases hany : m.any (fun p => p.1 == k) with
  | true =>
    rw [if_pos rfl]
    cases hnk : (n == k) with
    | true =>
      have hnk2 : n = k := beq_iff_eq.1 hnk
      subst hnk2
      rw [if_pos rfl]
      exact lookup_map_replace_eq m n v hany
    | false =>
      rw [if_neg (by simp [hnk])]
      exact lookup_map_replace_ne m k v n hnk
  | false =>
    rw [if_neg (by simp [hany])]
    rw [lookup_append]
    cases hnk : (n == k) with
    | true =>
      have hnk2 : n = k := beq_iff_eq.1 hnk
      subst hnk2
      rw [lookup_eq_none_of_any_false m n hany, if_pos rfl]
      simp [List.lookup]
    | false =>
      rw [if_neg (by simp [hnk])]
      cases hm : m.lookup n with
      | some w => rfl
      | none => simp [List.lookup, hnk]

theorem lookup_mem_beq {κ α : Type} [BEq κ] [LawfulBEq κ]
    (m : List (κ × α)) (k : κ) (v : α)
    (h : m.lookup k = some v) : ∃ k', (k', v) ∈ m ∧ k' = k := by
  induction m with
  | nil => simp [List.lookup] at h
  | cons p rest ih =>
    rw [List.lookup] at h
    split at h
    · rename_i hbeq
      have hv : v = p.2 := (Option.some.inj h).symm
      subst hv
      refine ⟨p.1, ?_, (beq_iff_eq.1 hbeq).symm⟩
      rw [Prod.mk.eta]
      exact List.Mem.head rest
    · obtain ⟨k', hk', hb⟩ := ih h
      exact ⟨k', List.mem_cons_of_mem _ hk', hb⟩

theorem some_beq_some_false (a b : String) (h : a ≠ b) :
    ((some a : Option String) == some b) = false := by
  rw [beq_eq_false_iff_ne]
  exact fun hh => h (Option.some.inj hh)

theorem mrScan_step (repoName : String) (comp : Component)
    (m : List (String × RepoEntry)) (prior : String → String → Bool)
    (h : ScanInv prior m) :
    ScanInv (fun r n => prior r n || (r == repoName && (comp.name == some n)))
      (match comp.name with
       | none => m
       | some n =>
         if n = "" then m
         else
           match m.lookup n with
           | none => dictInsert m n ⟨[repoName], comp⟩
           | some e =>
             dictInsert m n
               { repos := e.repos ++ [repoName]
                 component := if repoName = "contrib" then comp else e.component }) := by
  cases hname : comp.name with
  | none =>
    refine ScanInv_congr prior _ m ?_ h
    intro r n
    simp
  | some n' =>
    dsimp only
    by_cases hblank : n' = ""
    · subst hblank
      rw [if_pos rfl]
      obtain ⟨h1, h2, h3⟩ := h
      refine ⟨h1, ?_, ?_⟩
      · intro p hp r
        have hx := some_beq_some_false "" p.1 (fun hh => (h1 p hp).2 hh.symm)
        dsimp only
        rw [hx, Bool.and_false, Bool.or_false]
        exact h2 p hp r
      · intro n r hne hpr
        dsimp only at hpr
        rw [some_beq_some_false "" n (fun hh => hne hh.symm),
          Bool.and_false, Bool.or_false] at hpr
        exact h3 n r hne hpr
    · rw [if_neg hblank]
      cases hlk : m.lookup n' with
      | none =>
        obtain ⟨h1, h2, h3⟩ := h
        have hprior_none : ∀ r, prior r n' = false := by
          intro r
          cases hp : prior r n' with
          | false => rfl
          | true =>
            have hh := h3 n' r hblank hp
            rw [hlk] at hh
            simp at hh
        refine ⟨?_, ?_, ?_⟩
        · intro p hp
          rcases mem_dictInsert m n' _ p hp with rfl | ⟨hpm, _⟩
          · exact ⟨hname, hblank⟩
          · exact h1 p hpm
        · intro p hp r
          rcases mem_dictInsert m n' _ p hp with rfl | ⟨hpm, hpk⟩
          · simp only [List.mem_singleton]
            rw [hprior_none r, Bool.false_or]
            have hsn : ((some n' : Option String) == some n') = true := by simp
            rw [hsn, Bool.and_true]
            constructor
            · rintro rfl
              simp
            · intro hr
              exact beq_iff_eq.1 hr
          · have hne : p.1 ≠ n' := by rwa [beq_eq_false_iff_ne] at hpk
            dsimp only
            rw [some_beq_some_false n' p.1 (fun hh => hne hh.symm),
              Bool.and_false, Bool.or_false]
            exact h2 p hpm r
        · intro n r hne hpr
          dsimp only at hpr
          rw [dictInsert_lookup]
          cases hnn : (n == n') with
          | true => rw [if_pos rfl]; rfl
          | false =>
            rw [if_neg (by simp)]
            have hnne : n ≠ n' := by rwa [beq_eq_false_iff_ne] at hnn
            rw [some_beq_some_false n' n (fun hh => hnne hh.symm),
              Bool.and_false, Bool.or_false] at hpr
            exact h3 n r hne hpr
      | some e =>
        obtain ⟨h1, h2, h3⟩ := h
        obtain ⟨k', hk'm, hk'⟩ := lookup_mem_beq m n' e hlk
        rw [hk'] at hk'm
        refine ⟨?_, ?_, ?_⟩
        · intro p hp
          rcases mem_dictInsert m n' _ p hp with rfl | ⟨hpm, _⟩
          · refine ⟨?_, hblank⟩
            dsimp only
            split
            · exact hname
            · exact (h1 (n', e) hk'm).1
          · exact h1 p hpm
        · intro p hp r
          rcases mem_dictInsert m n' _ p hp with rfl | ⟨hpm, hpk⟩
          · dsimp only
            rw [List.mem_append, List.mem_singleton]
            have hsn : ((some n' : Option String) == some n') = true := by simp
            rw [hsn, Bool.and_true]
            rw [show (r ∈ e.repos ↔ prior r n' = true) from h2 (n', e) hk'm r]
            constructor
            · rintro (hp' | rfl)
              · rw [hp']
                simp
              · simp
            · intro hor
              cases hp' : prior r n' with
              | true => exact Or.inl rfl
              | false =>
                rw [hp', Bool.false_or] at hor
                exact Or.inr (beq_iff_eq.1 hor)
          · have hne : p.1 ≠ n' := by rwa [beq_eq_false_iff_ne] at hpk
            dsimp only
            rw [some_beq_some_false n' p.1 (fun hh => hne hh.symm),
              Bool.and_false, Bool.or_false]
            exact h2 p hpm r
        · intro n r hne hpr
          dsimp only at hpr
          rw [dictInsert_lookup]
          cases hnn : (n == n') with
          | true => rw [if_pos rfl]; rfl
          | false =>
            rw [if_neg (by simp)]
            have hnne : n ≠ n' := by rwa [beq_eq_false_iff_ne] at hnn
            rw [some_beq_some_false n' n (fun hh => hnne hh.symm),
              Bool.and_false, Bool.or_false] at hpr
            exact h3 n r hne hpr

theorem mrScan_inv (repoName : String) (comps : List Component) :
    ∀ (m : List (String × RepoEntry)) (prior : String → String → Bool),
      ScanInv prior m →
      ScanInv (fun r n => prior r n
          || (r == repoName && comps.any (fun c => c.name == some n)))
        (mrScanComps repoName m comps) := by
  induction comps with
  | nil =>
    intro m prior h
    refine ScanInv_congr prior _ m ?_ h
    intro r n
    simp
  | cons comp rest ih =>
    intro m prior h
    have hstep := mrScan_step repoName comp m prior h
    have hrec := ih _ _ hstep
    refine ScanInv_congr _ _ _ ?_ hrec
    intro r n
    dsimp only
    cases prior r n <;> cases hb : (r == repoName) <;>
      simp [List.any_cons, Bool.and_or_distrib_left, Bool.or_assoc]

theorem mrCollect_inv (t : String) (invs : List (String × TypedComps)) :
    ∀ (m : List (String × RepoEntry)) (prior : String → String → Bool),
      ScanInv prior m →
      ScanInv (fun r n => prior r n || mrSaw invs t r n) (mrCollectGo t m invs) := by
  induction invs with
  | nil =>
    intro m prior h
    refine ScanInv_congr prior _ m ?_ h
    intro r n
    simp [mrSaw]
  | cons p rest ih =>
    intro m prior h
    obtain ⟨repoName, tc⟩ := p
    have hscan := mrScan_inv repoName ((tc.lookup t).getD []) m prior h
    have hrec := ih _ _ hscan
    refine ScanInv_congr _ _ _ ?_ hrec
    intro r n
    dsimp only
    simp [mrSaw, List.any_cons, Bool.or_assoc]

theorem ScanInv_nil : ScanInv (fun _ _ => false) [] := by
  refine ⟨?_, ?_, ?_⟩ <;> simp

theorem mrEntries_inv (t : String) (invs : List (String × TypedComps)) :
    ScanInv (fun r n => mrSaw invs t r n) (mrCollectGo t [] invs) := by
  have h := mrCollect_inv t invs [] (fun _ _ => false) ScanInv_nil
  refine ScanInv_congr _ _ _ ?_ h
  intro r n
  simp

theorem mrFinalize_props (e : RepoEntry) (c : Component) (h : mrFinalize e = .ok c) :
    c.name = e.component.name ∧
      distsOf c = .ok (sortStr
        ((if e.repos.contains "core" then ["core"] else [])
          ++ (if e.repos.contains "contrib" then ["contrib"] else []))) := by
  unfold mrFinalize at h
  cases hmd : e.component.metadata with
  | none =>
    simp only [hmd, ok_bind] at h
    cases Except.ok.inj h
    exact ⟨rfl, rfl⟩
  | some omd =>
    cases omd with
    | none => simp [hmd, error_bind] at h
    | some md =>
      simp only [hmd, ok_bind] at h
      cases hst : md.status with
      | none =>
        simp only [hst, ok_bind] at h
        cases Except.ok.inj h
        exact ⟨rfl, rfl⟩
      | some ost =>
        cases ost with
        | none => simp [hst, error_bind] at h
        | some st =>
          simp only [hst, ok_bind] at h
          cases Except.ok.inj h
          exact ⟨rfl, rfl⟩

theorem mrFinalizeList_mem (entries : List (String × RepoEntry))
    (out : List Component) (h : mrFinalizeList entries = .ok out)
    (c : Component) (hc : c ∈ out) :
    ∃ p ∈ entries, mrFinalize p.2 = .ok c := by
  induction entries generalizing out with
  | nil =>
    simp only [mrFinalizeList, Except.ok.injEq] at h
    subst h
    simp at hc
  | cons p rest ih =>
    obtain ⟨k, e⟩ := p
    cases h1 : mrFinalize e with
    | error er => simp [mrFinalizeList, h1, error_bind] at h
    | ok c1 =>
      cases h2 : mrFinalizeList rest with
      | error er => simp [mrFinalizeList, h1, h2, ok_bind, error_bind] at h
      | ok cs =>
        simp only [mrFinalizeList, h1, h2, ok_bind, Except.ok.injEq] at h
        subst h
        rcases List.mem_cons.1 hc with rfl | hc'
        · exact ⟨(k, e), List.mem_cons_self _ _, h1⟩
        · obtain ⟨p', hp', hf'⟩ := ih cs h2 hc'
          exact ⟨p', List.mem_cons_of_mem _ hp', hf'⟩

theorem mergeTypeMR_mem (invs : List (String × TypedComps)) (t : String)
    (out : List Component) (h : mergeTypeMR invs t = .ok out)
    (c : Component) (hc : c ∈ out) :
    ∃ p ∈ mrCollectGo t [] invs, mrFinalize p.2 = .ok c := by
  unfold mergeTypeMR at h
  cases h1 : mrFinalizeList (mrCollectGo t [] invs) with
  | error er => rw [h1, error_bind] at h; exact absurd h (by simp)
  | ok comps =>
    rw [h1, ok_bind] at h
    cases Except.ok.inj h
    exact mrFinalizeList_mem _ comps h1 c ((mem_sortLe _ c comps).1 hc)

theorem mergeTypesMR_mem (invs : List (String × TypedComps)) (ts : List String)
    (r : List (String × List Component)) (t : String) (l : List Component)
    (h : mergeTypesMR invs ts = .ok r) (hm : (t, l) ∈ r) :
    mergeTypeMR invs t = .ok l := by
  induction ts generalizing r with
  | nil =>
    simp only [mergeTypesMR, Except.ok.injEq] at h
    subst h
    simp at hm
  | cons t' ts ih =>
    cases h1 : mergeTypeMR invs t' with
    | error er => simp [mergeTypesMR, h1, error_bind] at h
    | ok l' =>
      cases h2 : mergeTypesMR invs ts with
      | error er => simp [mergeTypesMR, h1, h2, ok_bind, error_bind] at h
      | ok r' =>
        simp only [mergeTypesMR, h1, h2, ok_bind, Except.ok.injEq] at h
        subst h
        rcases List.mem_cons.1 hm with heq | hmem
        · cases heq
          exact h1
        · exact ih r' h2 hmem

/-- C2 amended: in `MultiRepoScanner._merge_inventories` every merged
record's `metadata.status.distributions` is the sorted list of those of
its sighting sources that are named `"core"` or `"contrib"` (so
`["contrib", "core"]` in sorted order when both saw it — not
`["core", "contrib"]` as the claim's example suggests); source names
other than core/contrib are ignored.  The docs-update merge
(`update_docs.merge_inventories`) does not behave this way: it unions
the metadata-declared distribution lists instead (see the
counterexample). -/
theorem mergeMR_distributions (invs : List (String × TypedComps))
    (m : List (String × List Component)) (t : String) (l : List Component)
    (c : Component) (hm : mergeInventoriesMR invs = .ok m)
    (hl : (t, l) ∈ m) (hc : c ∈ l) :
    ∃ n, c.name = some n ∧
      distsOf c = .ok (sortStr
        ((if mrSaw invs t "core" n then ["core"] else [])
          ++ (if mrSaw invs t "contrib" n then ["contrib"] else []))) := by
  have hty : mergeTypeMR invs t = .ok l := mergeTypesMR_mem invs mrTypes m t l hm hl
  obtain ⟨p, hp, hfin⟩ := mergeTypeMR_mem invs t l hty c hc
  obtain ⟨hinv1, hinv2, _⟩ := mrEntries_inv t invs
  obtain ⟨hname, hblank⟩ := hinv1 p hp
  obtain ⟨hcn, hdists⟩ := mrFinalize_props p.2 c hfin
  refine ⟨p.1, by rw [hcn, hname], ?_⟩
  rw [hdists]
  have hcore : p.2.repos.contains "core" = mrSaw invs t "core" p.1 := by
    cases hx : mrSaw invs t "core" p.1 with
    | true =>
      have hmem : "core" ∈ p.2.repos := (hinv2 p hp "core").2 hx
      simpa [List.contains] using List.elem_iff.2 hmem
    | false =>
      cases hcb : p.2.repos.contains "core" with
      | false => rfl
      | true =>
        have hmem : "core" ∈ p.2.repos := List.elem_iff.1 (by simpa [List.contains] using hcb)
        have := (hinv2 p hp "core").1 hmem
        dsimp only at this
        rw [hx] at this
        exact absurd this (by simp)
  have hcontrib : p.2.repos.contains "contrib" = mrSaw invs t "contrib" p.1 := by
    cases hx : mrSaw invs t "contrib" p.1 with
    | true =>
      have hmem : "contrib" ∈ p.2.repos := (hinv2 p hp "contrib").2 hx
      simpa [List.contains] using List.elem_iff.2 hmem
    | false =>
      cases hcb : p.2.repos.contains "contrib" with
      | false => rfl
      | true =>
        have hmem : "contrib" ∈ p.2.repos :=
          List.elem_iff.1 (by simpa [List.contains] using hcb)
        have := (hinv2 p hp "contrib").1 hmem
        dsimp only at this
        rw [hx] at this
        exact absurd this (by simp)
  rw [hcore, hcontrib]

/-- C2 counterexample: in `update_docs.merge_inventories` the merged
record for a contrib-only component keeps its metadata-declared
distributions (`["foo"]`), not the sorted list of sources that saw it
(`["contrib"]`). -/
theorem mergeUD_distributions_not_source_based :
    (mergeInventoriesUD ⟨[]⟩ c2contrib).map
      (fun mm => (mm.components.lookup "receiver").map (fun l => l.map distsOf))
      = .ok (some [.ok ["foo"]]) := by
  decide

/-- C2 witness: the distributions theorem applied at the witness run. -/
theorem mergeMR_distributions_witness :
    ∃ n, c2c.name = some n ∧
      distsOf c2c = .ok (sortStr
        ((if mrSaw c2invs "receiver" "core" n then ["core"] else [])
          ++ (if mrSaw c2invs "receiver" "contrib" n then ["contrib"] else []))) :=
  mergeMR_distributions c2invs c2m "receiver" c2l c2c rfl (by decide) (by decide)

/-! ## C1: content of the both-sources merge -/

theorem coreFold_lookup (t n : String) (hn : n ≠ "x" ++ t)
    (coreComps : List Component) :
    ∀ m : List (Option String × Component),
      ((coreComps.foldl (fun m comp =>
          if comp.name == some ("x" ++ t) then m
          else dictInsert m comp.name { comp with source_repo := some "core" })
        m).lookup (some n))
      = match (coreComps.filter (fun c => c.name == some n)).getLast? with
        | some c => some { c with source_repo := some "core" }
        | none => m.lookup (some n) := by
  induction coreComps with
  | nil => intro m; rfl
  | cons comp rest ih =>
    intro m
    rw [List.foldl_cons]
    cases hcn : (comp.name == some n) with
    | true =>
      have hname : comp.name = some n := beq_iff_eq.1 hcn
      have hguard : (comp.name == some ("x" ++ t)) = false := by
        rw [hname]
        exact some_beq_some_false n _ hn
      rw [if_neg (by simp [hguard])]
      rw [ih]
      simp only [List.filter_cons]
      rw [if_pos hcn]
      cases hrf : rest.filter (fun c => c.name == some n) with
      | nil =>
        rw [hname]
        simp [dictInsert_lookup, hname]
      | cons a as =>
        rw [List.getLast?_cons_cons]
        cases hgl : (a :: as).getLast? with
        | some c => rfl
        | none => simp at hgl
    | false =>
      have hcne : comp.name ≠ some n := by
        rw [beq_eq_false_iff_ne] at hcn
        exact hcn
      have hnc : ((some n : Option String) == comp.name) = false := by
        rw [beq_eq_false_iff_ne]
        exact fun hh => hcne hh.symm
      have hfilt : (comp :: rest).filter (fun c => c.name == some n)
          = rest.filter (fun c => c.name == some n) := by
        simp only [List.filter_cons]
        rw [if_neg (by simp [hcn])]
      rw [hfilt]
      cases hguard : (comp.name == some ("x" ++ t)) with
      | true =>
        rw [if_pos rfl]
        exact ih m
      | false =>
        rw [if_neg (by simp)]
        rw [ih]
        cases hgl : (rest.filter (fun c => c.name == some n)).getLast? with
        | some c => simp [hgl]
        | none =>
          simp only [hgl]
          rw [dictInsert_lookup]
          rw [if_neg (by simp [hnc])]

theorem contribFold_preserve (t n : String) (comps : List Component) :
    ∀ m m', comps.filter (fun c => c.name == some n) = [] →
      contribFold t m comps = .ok m' →
      m'.lookup (some n) = m.lookup (some n) := by
  induction comps with
  | nil =>
    intro m m' _ h
    simp only [contribFold, Except.ok.injEq] at h
    subst h
    rfl
  | cons comp rest ih =>
    intro m m' hnone h
    have hcn : (comp.name == some n) = false := by
      cases hb : (comp.name == some n) with
      | false => rfl
      | true =>
        simp only [List.filter_cons] at hnone
        rw [if_pos hb] at hnone
        exact absurd hnone (by simp)
    have hrest : rest.filter (fun c => c.name == some n) = [] := by
      simp only [List.filter_cons] at hnone
      rw [if_neg (by simp [hcn])] at hnone
      exact hnone
    have hnc : ((some n : Option String) == comp.name) = false := by
      rw [beq_eq_false_iff_ne]
      intro hh
      rw [beq_eq_false_iff_ne] at hcn
      exact hcn hh.symm
    rw [contribFold] at h
    split at h
    · exact ih m m' hrest h
    · split at h
      · rename_i existing hlk
        cases hmb : mergeBoth existing comp with
        | error e => rw [hmb, error_bind] at h; exact absurd h (by simp)
        | ok merged =>
          rw [hmb, ok_bind] at h
          rw [ih _ m' hrest h]
          rw [dictInsert_lookup]
          rw [if_neg (by simp [hnc])]
      · rw [ih _ m' hrest h]
        rw [dictInsert_lookup]
        rw [if_neg (by simp [hnc])]

theorem contribFold_merge (t n : String) (hn : n ≠ "x" ++ t)
    (comps : List Component) :
    ∀ (cc : Component) (m m' : List (Option String × Component)) (v : Component),
      comps.filter (fun c => c.name == some n) = [cc] →
      m.lookup (some n) = some v →
      contribFold t m comps = .ok m' →
      ∃ merged, mergeBoth v cc = .ok merged ∧
        m'.lookup (some n) = some merged := by
  induction comps with
  | nil =>
    intro cc m m' v hf _ _
    exact absurd hf (by simp)
  | cons comp rest ih =>
    intro cc m m' v hf hv h
    cases hcn : (comp.name == some n) with
    | true =>
      have hname : comp.name = some n := beq_iff_eq.1 hcn
      have hf2 : comp :: rest.filter (fun c => c.name == some n) = [cc] := by
        simp only [List.filter_cons] at hf
        rw [if_pos hcn] at hf
        exact hf
      injection hf2 with hcc hrest
      rw [contribFold] at h
      split at h
      · rename_i hguard
        rw [hname, some_beq_some_false n _ hn] at hguard
        exact absurd hguard (by simp)
      · split at h
        · rename_i existing hlk
          rw [hname, hv] at hlk
          have hex : v = existing := Option.some.inj hlk
          subst hex
          cases hmb : mergeBoth v comp with
          | error e => rw [hmb, error_bind] at h; exact absurd h (by simp)
          | ok merged =>
            rw [hmb, ok_bind] at h
            refine ⟨merged, by rw [← hcc]; exact hmb, ?_⟩
            rw [contribFold_preserve t n rest _ m' hrest h]
            rw [hname, dictInsert_lookup]
            simp
        · rename_i hlk
          rw [hname, hv] at hlk
          exact absurd hlk (by simp)
    | false =>
      have hrest : rest.filter (fun c => c.name == some n) = [cc] := by
        simp only [List.filter_cons] at hf
        rw [if_neg (by simp [hcn])] at hf
        exact hf
      have hnc : ((some n : Option String) == comp.name) = false := by
        rw [beq_eq_false_iff_ne]
        intro hh
        rw [beq_eq_false_iff_ne] at hcn
        exact hcn hh.symm
      rw [contribFold] at h
      split at h
      · exact ih cc m m' v hrest hv h
      · split at h
        · rename_i existing hlk
          cases hmb : mergeBoth existing comp with
          | error e => rw [hmb, error_bind] at h; exact absurd h (by simp)
          | ok merged =>
            rw [hmb, ok_bind] at h
            refine ih cc _ m' v hrest ?_ h
            rw [dictInsert_lookup]
            rw [if_neg (by simp [hnc])]
            exact hv
        · refine ih cc _ m' v hrest ?_ h
          rw [dictInsert_lookup]
          rw [if_neg (by simp [hnc])]
          exact hv

theorem mergeBoth_eq (existing comp : Component) (exd cod : List String)
    (h1 : distsOf existing = .ok exd) (h2 : distsOf comp = .ok cod) :
    mergeBoth existing comp = .ok (setDistributions
      (if metaTruthy comp && !(metaTruthy existing) then
        { existing with metadata := comp.metadata }
      else existing)
      (sortedUnion exd cod)) := by
  unfold mergeBoth
  rw [h1, ok_bind, h2, ok_bind]

/-- C1 amended: in `update_docs.merge_inventories`, for a name `n`
(not the `x<type>` marker) kept from core (`cCore`, the last core record
named `n`) and appearing exactly once in contrib (`cContrib`), the
merged output contains the record built from CORE's record: provenance
`source_repo = "core"`, distributions the sorted union of both declared
lists, and contrib's metadata adopted only when contrib's metadata is
truthy and core's is not — otherwise core's metadata is kept.  The claim
that the substantive content always equals contrib's record is false
(see the counterexample), and the scanner-level merge, which does keep
contrib's record, never sets `source_repo` at all. -/
theorem mergeUD_both_content (core contrib m : Inventory)
    (t n : String) (l : List Component) (cCore cContrib : Component)
    (exd cod : List String)
    (hn : n ≠ "x" ++ t)
    (hm : mergeInventoriesUD core contrib = .ok m)
    (hl : (t, l) ∈ m.components)
    (hcore : ((compsOf core t).filter
      (fun c => c.name == some n)).getLast? = some cCore)
    (hcontrib : (compsOf contrib t).filter
      (fun c => c.name == some n) = [cContrib])
    (hexd : distsOf cCore = .ok exd)
    (hcod : distsOf cContrib = .ok cod) :
    setDistributions
      (if metaTruthy cContrib
          && !(metaTruthy { cCore with source_repo := some "core" }) then
        { { cCore with source_repo := some "core" }
            with metadata := cContrib.metadata }
      else { cCore with source_repo := some "core" })
      (sortedUnion exd cod) ∈ l := by
  unfold mergeInventoriesUD at hm
  dsimp only at hm
  cases h1 : mergeTypesUD core contrib (sortStr
      ((core.components.map Prod.fst
        ++ contrib.components.map Prod.fst).dedup)) with
  | error e => rw [h1, error_bind] at hm; exact absurd hm (by simp)
  | ok comps =>
    rw [h1, ok_bind] at hm
    cases Except.ok.inj hm
    have hty : mergeTypeUD t (compsOf core t) (compsOf contrib t) = .ok l :=
      mergeTypesUD_mem core contrib _ comps t l h1 hl
    unfold mergeTypeUD at hty
    dsimp only at hty
    cases hcf : contribFold t ((compsOf core t).foldl (fun m comp =>
        if comp.name == some ("x" ++ t) then m
        else dictInsert m comp.name { comp with source_repo := some "core" })
        []) (compsOf contrib t) with
    | error e => rw [hcf, error_bind] at hty; exact absurd hty (by simp)
    | ok m2 =>
      rw [hcf, ok_bind] at hty
      cases Except.ok.inj hty
      have hm1 : ((compsOf core t).foldl (fun m comp =>
          if comp.name == some ("x" ++ t) then m
          else dictInsert m comp.name { comp with source_repo := some "core" })
          []).lookup (some n) = some { cCore with source_repo := some "core" } := by
        rw [coreFold_lookup t n hn (compsOf core t) []]
        rw [hcore]
      obtain ⟨merged, hmb, hm2l⟩ :=
        contribFold_merge t n hn (compsOf contrib t) cContrib _ m2 _
          hcontrib hm1 hcf
      have hexd2 : distsOf { cCore with source_repo := some "core" } = .ok exd :=
        hexd
      have heq := mergeBoth_eq { cCore with source_repo := some "core" }
        cContrib exd cod hexd2 hcod
      have hmerged := Except.ok.inj (hmb.symm.trans heq)
      rw [← hmerged]
      obtain ⟨k', hk'⟩ := lookup_mem m2 (some n) merged hm2l
      exact (mem_sortLe _ _ _).2 (List.mem_map.2 ⟨(k', merged), hk', rfl⟩)

/-- C1 counterexample: `update_docs.merge_inventories` on a component
present in both sources with truthy metadata on both sides keeps CORE's
metadata (`class = "corecls"`), not contrib's record as the claim
demands. -/
theorem mergeUD_keeps_core_metadata :
    (mergeInventoriesUD c1core c1contrib).map
      (fun mm => (mm.components.lookup "receiver").map
        (fun l => l.map (fun c => (c.metadata, c.source_repo))))
      = .ok (some [(some (some ⟨some (some ⟨none, some (some []), []⟩),
          none, none, [("class", Val.str "corecls")]⟩), some "core")]) := by
  decide

/-- C1 witness: the content theorem applied at the witness run. -/
theorem mergeUD_both_content_witness :
    setDistributions
      (if metaTruthy c1cContrib
          && !(metaTruthy { c1cCore with source_repo := some "core" }) then
        { { c1cCore with source_repo := some "core" }
            with metadata := c1cContrib.metadata }
      else { c1cCore with source_repo := some "core" })
      (sortedUnion [] []) ∈ c1l :=
  mergeUD_both_content c1core c1contrib c1m "receiver" "foo" c1l
    c1cCore c1cContrib [] [] (by decide) (by decide) (by decide)
    (by decide) (by decide) rfl rfl

/-! ## C7: characterization of `Version.from_string` -/

theorem mem_takeWhile_p {α : Type} (p : α → Bool) (l : List α) :
    ∀ x ∈ l.takeWhile p, p x = true := by
  induction l with
  | nil => simp
  | cons a l ih =>
    intro x hx
    rw [List.takeWhile_cons] at hx
    cases hp : p a with
    | true =>
      rw [hp] at hx
      simp only [if_true, List.mem_cons] at hx
      rcases hx with rfl | hx
      · exact hp
      · exact ih x hx
    | false =>
      rw [hp] at hx
      simp at hx

theorem takeWhile_append_dropWhile_eq (p : Char → Bool) (l : List Char) :
    l.takeWhile p ++ l.dropWhile p = l := by
  induction l with
  | nil => rfl
  | cons a l ih =>
    rw [List.takeWhile_cons, List.dropWhile_cons]
    cases hp : p a with
    | true => simp only [if_true, List.cons_append, ih]
    | false => simp

theorem dropWhile_headq_not (p : Char → Bool) (l : List Char) :
    ∀ c, (l.dropWhile p).head? = some c → p c = false := by
  induction l with
  | nil => intro c hc; simp at hc
  | cons a l ih =>
    intro c hc
    rw [List.dropWhile_cons] at hc
    cases hp : p a with
    | true =>
      rw [hp] at hc
      simp only [if_true] at hc
      exact ih c hc
    | false =>
      rw [hp] at hc
      simp only [Bool.false_eq_true, if_false, List.head?_cons,
        Option.some.injEq] at hc
      rw [← hc]
      exact hp

theorem dropWhile_replicate_not (p : Char → Bool) (v : Char) (hv : p v = true)
    (k : Nat) (rest : List Char)
    (hr : ∀ c, rest.head? = some c → p c = false) :
    (List.replicate k v ++ rest).dropWhile p = rest := by
  induction k with
  | zero =>
    rw [List.replicate_zero, List.nil_append]
    cases rest with
    | nil => rfl
    | cons a r =>
      rw [List.dropWhile_cons]
      rw [hr a rfl]
      simp
  | succ k ih =>
    rw [List.replicate_succ, List.cons_append, List.dropWhile_cons, hv]
    simpa using ih

theorem takeWhile_digit_split (as r : List Char)
    (ha : ∀ c ∈ as, c.isDigit = true) :
    (as ++ '.' :: r).takeWhile Char.isDigit = as
    ∧ (as ++ '.' :: r).dropWhile Char.isDigit = '.' :: r := by
  induction as with
  | nil =>
    rw [List.nil_append]
    exact ⟨by rw [List.takeWhile_cons]; rfl, by rw [List.dropWhile_cons]; rfl⟩
  | cons a as ih =>
    have hda : a.isDigit = true := ha a (by simp)
    obtain ⟨ih1, ih2⟩ := ih (fun c hc => ha c (by simp [hc]))
    rw [List.cons_append, List.takeWhile_cons, List.dropWhile_cons, hda]
    simp only [if_true]
    exact ⟨by rw [ih1], by rw [ih2]⟩

theorem takeWhile_digit_all (ds : List Char)
    (hd : ∀ c ∈ ds, c.isDigit = true) :
    ds.takeWhile Char.isDigit = ds ∧ ds.dropWhile Char.isDigit = [] := by
  induction ds with
  | nil => exact ⟨rfl, rfl⟩
  | cons d ds ih =>
    have hdd : d.isDigit = true := hd d (by simp)
    obtain ⟨ih1, ih2⟩ := ih (fun c hc => hd c (by simp [hc]))
    rw [List.takeWhile_cons, List.dropWhile_cons, hdd]
    simp only [if_true]
    exact ⟨by rw [ih1], by rw [ih2]⟩

theorem eq_cons_of_headq {α : Type} (l : List α) (a : α)
    (h : l.head? = some a) : l = a :: l.tail := by
  cases l with
  | nil => simp at h
  | cons b t =>
    rw [List.head?_cons, Option.some.injEq] at h
    rw [h]
    rfl

theorem matchTriple_some_iff (cs : List Char) (x y z : Nat) :
    matchTriple cs = some (x, y, z) ↔
      ∃ as bs ds : List Char,
        as ≠ [] ∧ bs ≠ [] ∧ ds ≠ [] ∧
        (∀ c ∈ as, c.isDigit = true) ∧ (∀ c ∈ bs, c.isDigit = true) ∧
        (∀ c ∈ ds, c.isDigit = true) ∧
        cs = as ++ ('.' :: (bs ++ ('.' :: ds))) ∧
        x = natOfDigits as ∧ y = natOfDigits bs ∧ z = natOfDigits ds := by
  constructor
  · intro h
    unfold matchTriple at h
    dsimp only at h
    split at h
    · rename_i hcond
      obtain ⟨hne1, hh1, hne2, hh2, hne3, hh3⟩ := hcond
      have hp := Option.some.inj h
      injection hp with h1 hp2
      injection hp2 with h2 h3
      have e1 : cs = cs.takeWhile Char.isDigit
          ++ '.' :: (cs.dropWhile Char.isDigit).tail := by
        conv_lhs => rw [← takeWhile_append_dropWhile_eq Char.isDigit cs]
        rw [← eq_cons_of_headq _ _ hh1]
      have e2 : (cs.dropWhile Char.isDigit).tail
          = (cs.dropWhile Char.isDigit).tail.takeWhile Char.isDigit
            ++ '.' :: ((cs.dropWhile Char.isDigit).tail.dropWhile
                Char.isDigit).tail := by
        conv_lhs => rw [← takeWhile_append_dropWhile_eq Char.isDigit
          (cs.dropWhile Char.isDigit).tail]
        rw [← eq_cons_of_headq _ _ hh2]
      have e3 : ((cs.dropWhile Char.isDigit).tail.dropWhile Char.isDigit).tail
          = ((cs.dropWhile Char.isDigit).tail.dropWhile
              Char.isDigit).tail.takeWhile Char.isDigit := by
        conv_lhs => rw [← takeWhile_append_dropWhile_eq Char.isDigit
          ((cs.dropWhile Char.isDigit).tail.dropWhile Char.isDigit).tail]
        rw [hh3, List.append_nil]
      refine ⟨cs.takeWhile Char.isDigit,
        (cs.dropWhile Char.isDigit).tail.takeWhile Char.isDigit,
        ((cs.dropWhile Char.isDigit).tail.dropWhile
          Char.isDigit).tail.takeWhile Char.isDigit,
        hne1, hne2, hne3,
        mem_takeWhile_p _ _, mem_takeWhile_p _ _, mem_takeWhile_p _ _,
        ?_, h1.symm, h2.symm, h3.symm⟩
      rw [← e3, ← e2]
      exact e1
    · exact absurd h (by simp)
  · rintro ⟨as, bs, ds, ha, hb, hd, hda, hdb, hdd, hcs, hx, hy, hz⟩
    subst hcs
    obtain ⟨ht1, hd1⟩ := takeWhile_digit_split as (bs ++ ('.' :: ds)) hda
    obtain ⟨ht2, hd2⟩ := takeWhile_digit_split bs ds hdb
    obtain ⟨ht3, hd3⟩ := takeWhile_digit_all ds hdd
    unfold matchTriple
    dsimp only
    rw [ht1, hd1, List.tail_cons, ht2, hd2, List.tail_cons, ht3, hd3]
    rw [if_pos ⟨ha, rfl, hb, rfl, hd, rfl⟩]
    rw [hx, hy, hz]

/-- C7 amended: `Version.from_string` accepts exactly the strings
obtained by prefixing ANY number of `v` characters (not just one:
`lstrip("v")` strips them all) to a remainder; the snapshot flag is set
iff the remainder ends with `-SNAPSHOT`, in which case EVERY occurrence
of `-SNAPSHOT` in the remainder is deleted (`str.replace`), not just the
trailing one; the string is accepted iff what is left then matches
`^(\d+)\.(\d+)\.(\d+)$`, with the three digit groups parsed as the
numeric components.  Every other input fails with `ValueError`. -/
theorem fromString_ok_iff (s : String) (v : Version) :
    Version.fromString s = .ok v ↔
      ∃ (k : Nat) (rest : List Char),
        s.data = List.replicate k 'v' ++ rest ∧
        (∀ c, rest.head? = some c → c ≠ 'v') ∧
        v.is_snapshot = snapshotChars.isSuffixOf rest ∧
        ∃ as bs ds : List Char,
          as ≠ [] ∧ bs ≠ [] ∧ ds ≠ [] ∧
          (∀ c ∈ as, c.isDigit = true) ∧ (∀ c ∈ bs, c.isDigit = true) ∧
          (∀ c ∈ ds, c.isDigit = true) ∧
          (if v.is_snapshot then removeSnap rest else rest)
            = as ++ ('.' :: (bs ++ ('.' :: ds))) ∧
          v.major = natOfDigits as ∧ v.minor = natOfDigits bs ∧
          v.patch = natOfDigits ds := by
  constructor
  · intro h
    unfold Version.fromString at h
    dsimp only at h
    split at h
    · rename_i a b c heq
      have hv := Except.ok.inj h
      subst hv
      obtain ⟨as, bs, ds, h1, h2, h3, h4, h5, h6, h7, h8, h9, h10⟩ :=
        (matchTriple_some_iff _ a b c).1 heq
      refine ⟨(s.data.takeWhile (fun c => decide (c = 'v'))).length,
        s.data.dropWhile (fun c => decide (c = 'v')), ?_, ?_, rfl,
        as, bs, ds, h1, h2, h3, h4, h5, h6, h7, ?_, ?_, ?_⟩
      · conv_lhs => rw [← takeWhile_append_dropWhile_eq
          (fun c => decide (c = 'v')) s.data]
        have : s.data.takeWhile (fun c => decide (c = 'v'))
            = List.replicate
                (s.data.takeWhile (fun c => decide (c = 'v'))).length 'v' :=
          List.eq_replicate_of_mem (fun b hb =>
            of_decide_eq_true (mem_takeWhile_p _ _ b hb))
        rw [← this]
      · intro c hc
        have := dropWhile_headq_not (fun c => decide (c = 'v')) s.data c hc
        exact of_decide_eq_false this
      · exact h8
      · exact h9
      · exact h10
    · exact absurd h (by simp)
  · rintro ⟨k, rest, hs, hhead, hsnap, as, bs, ds, ha, hb, hd,
      hda, hdb, hdd, hdec, hma, hmi, hpa⟩
    unfold Version.fromString
    dsimp only
    have hdw : s.data.dropWhile (fun c => decide (c = 'v')) = rest := by
      rw [hs]
      refine dropWhile_replicate_not _ 'v' (by simp) k rest ?_
      intro c hc
      exact decide_eq_false (hhead c hc)
    rw [hdw, ← hsnap, hdec]
    rw [(matchTriple_some_iff (as ++ ('.' :: (bs ++ ('.' :: ds))))
      (natOfDigits as) (natOfDigits bs) (natOfDigits ds)).2
      ⟨as, bs, ds, ha, hb, hd, hda, hdb, hdd, rfl, rfl, rfl, rfl⟩]
    rw [← hma, ← hmi, ← hpa]

/-- C7 witness: the characterization applied at the concrete accepted
input `"vv1.2.3-SNAPSHOT"` (two leading `v` characters). -/
theorem fromString_ok_iff_witness :
    ∃ (k : Nat) (rest : List Char),
      ("vv1.2.3-SNAPSHOT" : String).data = List.replicate k 'v' ++ rest ∧
      (∀ c, rest.head? = some c → c ≠ 'v') ∧
      (⟨1, 2, 3, true⟩ : Version).is_snapshot
        = snapshotChars.isSuffixOf rest ∧
      ∃ as bs ds : List Char,
        as ≠ [] ∧ bs ≠ [] ∧ ds ≠ [] ∧
        (∀ c ∈ as, c.isDigit = true) ∧ (∀ c ∈ bs, c.isDigit = true) ∧
        (∀ c ∈ ds, c.isDigit = true) ∧
        (if (⟨1, 2, 3, true⟩ : Version).is_snapshot then removeSnap rest
          else rest) = as ++ ('.' :: (bs ++ ('.' :: ds))) ∧
        (⟨1, 2, 3, true⟩ : Version).major = natOfDigits as ∧
        (⟨1, 2, 3, true⟩ : Version).minor = natOfDigits bs ∧
        (⟨1, 2, 3, true⟩ : Version).patch = natOfDigits ds :=
  (fromString_ok_iff "vv1.2.3-SNAPSHOT" ⟨1, 2, 3, true⟩).mp (by decide)
